import Mathlib

/-!
A shallow embedding of the DocuSearch core (backend/index/preprocess.py,
backend/index/indexer.py, backend/index/search.py, backend/index/storage.py,
backend/service/lru_cache.py, backend/service/search_service.py).

Python floats are modelled as exact rationals; the transcendental helpers
math.log and math.sqrt are taken as parameters (log sqrt : Rat → Rat), so every
theorem quantifies over them (hypotheses state just the order facts the real
functions satisfy).  Python dicts are modelled as association lists looked up
with alookup; dict iteration only ever feeds commutative aggregation or a
keyed sort in this code base, so association-list order is adequate.
-/

namespace DocuSearch

/-- Association-list lookup: the model of Python dict.get. -/
def alookup {α β : Type} [DecidableEq α] : List (α × β) → α → Option β
  | [], _ => none
  | (k, v) :: rest, a => if k = a then some v else alookup rest a

/-! ## Tokenizer (backend/index/preprocess.py) -/

/-- The stop-word set of preprocess.py, verbatim. -/
def STOPWORDS : List String :=
  ["a", "an", "the", "and", "or", "but", "if", "then", "else", "for", "to",
   "of", "in", "on", "at", "by", "with", "is", "are", "was", "were", "be",
   "been", "being", "it", "its", "as", "that", "this", "these", "those",
   "not", "no", "do", "does", "did", "how", "why", "what", "which", "who",
   "whom", "from"]

/-- Character class [a-z0-9] of the token regex (ASCII codes 97-122, 48-57). -/
def isTokChar (c : Char) : Bool :=
  (97 ≤ c.toNat && c.toNat ≤ 122) || (48 ≤ c.toNat && c.toNat ≤ 57)

/-- ASCII lowercasing, the effect of str.lower on the characters involved. -/
def lowerChar (c : Char) : Char :=
  if 65 ≤ c.toNat && c.toNat ≤ 90 then Char.ofNat (c.toNat + 32) else c

/-- One step of the regex substitution re.sub of [^a-z0-9]+ by a space:
applied characterwise, a maximal run of non-token characters becomes a run of
spaces, which the subsequent whitespace split treats like one separator. -/
def subChar (c : Char) : Char :=
  if isTokChar c then c else ' '

/-- Whitespace split (str.split with no argument): cut at spaces, drop empty
pieces.  The accumulator holds the current token reversed. -/
def splitTok : List Char → List Char → List (List Char)
  | [], acc => if acc.isEmpty then [] else [acc.reverse]
  | c :: cs, acc =>
    if c = ' ' then
      if acc.isEmpty then splitTok cs [] else acc.reverse :: splitTok cs []
    else splitTok cs (c :: acc)

/-- preprocess(text): lowercase, replace non-alphanumeric runs by a
separator, split, drop empty tokens and stop-words. -/
def preprocess (text : String) : List String :=
  if text = "" then []
  else
    let replaced := (text.data.map lowerChar).map subChar
    let toks := (splitTok replaced []).map String.mk
    toks.filter (fun t => !(t == "") && !(STOPWORDS.contains t))

/-! ## Index data model (the dict built by indexer.build_index) -/

/-- A postings entry, the dict with keys doc_id and tf. -/
structure Posting where
  doc_id : Nat
  tf : Nat
deriving DecidableEq

/-- A JSON-compatible dict key: Python int keys live alongside string keys
once an index has travelled through json.dump / json.load. -/
inductive JKey where
  | int (n : Nat) : JKey
  | str (s : String) : JKey
deriving DecidableEq

/-- The index dict returned by build_index. -/
structure Index where
  doc_id_map : List (JKey × String)
  forward_index : List (JKey × String)
  postings : List (String × List Posting)
  df : List (String × Nat)
  idf : List (String × Rat)
  N : Nat
  doc_norm : List (JKey × Rat)

/-! ## Query engine (backend/index/search.py) -/

/-- The sorted intersection of doc_ids present in all posting lists
(search.py, _and_intersect): sort the lists by length, take the shortest as
base, keep its doc_ids that occur in every other list, return them in
ascending order (sorted of the intersection set). -/
def and_intersect (posting_lists : List (List Posting)) : List Nat :=
  match posting_lists.mergeSort (fun a b => decide (a.length ≤ b.length)) with
  | [] => []
  | base :: rest =>
    let docs := (base.map Posting.doc_id).dedup
    let common := docs.filter
      (fun d => rest.all (fun pl => pl.any (fun e => decide (e.doc_id = d))))
    common.mergeSort (fun a b => decide (a ≤ b))

/-- The tf of doc d as read back from the per-term dict tf_map: built by
inserting every entry of the postings list keyed by doc_id, so a later entry
overwrites an earlier one. -/
def tfOf (plist : List Posting) (d : Nat) : Option Nat :=
  (plist.reverse.find? (fun e => decide (e.doc_id = d))).map Posting.tf

/-- The postings list fetched for a term, [] when absent. -/
def plistOf (index : Index) (t : String) : List Posting :=
  (alookup index.postings t).getD []

/-- The inner scoring loop of search: over the distinct query terms, sum
(1 + ln tf) * idf; if some tf is missing or zero the score collapses to 0
(the break in the loop). -/
def scoreOf (log : Rat → Rat) (index : Index) (tokens : List String) (d : Nat) : Rat :=
  let distinct := tokens.dedup
  if distinct.all (fun t => !(decide ((tfOf (plistOf index t) d).getD 0 = 0))) then
    (distinct.map (fun t =>
      (1 + log (((tfOf (plistOf index t) d).getD 0 : Nat) : Rat))
        * (alookup index.idf t).getD 0)).sum
  else 0

/-- Cosine normalization step of search: fetch the norm with default 1.0 and
divide only when it is positive. -/
def applyNorm (index : Index) (d : Nat) (s : Rat) : Rat :=
  let norm := (alookup index.doc_norm (JKey.int d)).getD 1
  if 0 < norm then s / norm else s

/-- The ranking comparator of search: sorted by key (-score, doc_id). -/
def rankLe (a b : Nat × Rat) : Bool :=
  decide (b.2 < a.2) || (decide (a.2 = b.2) && decide (a.1 ≤ b.1))

/-- search(query, index): AND-based retrieval with TF-IDF scoring and cosine
normalization, returning (doc_id, score) sorted by score descending with
doc_id as tie break. -/
def search (log : Rat → Rat) (query : String) (index : Index) : List (Nat × Rat) :=
  let tokens := preprocess query
  if tokens.isEmpty then []
  else if tokens.any (fun t => (plistOf index t).isEmpty) then []
  else
    let lists := tokens.map (fun t => plistOf index t)
    let candidates := and_intersect lists
    if candidates.isEmpty then []
    else
      let scores := candidates.map
        (fun d => (d, applyNorm index d (scoreOf log index tokens d)))
      scores.mergeSort rankLe

/-! ## Indexer (backend/index/indexer.py, build_index) -/

/-- Python str.strip character class (ASCII whitespace). -/
def isStripChar (c : Char) : Bool :=
  c = ' ' || c = '\t' || c = '\n' || c = '\r' || c = '\x0B' || c = '\x0C'

/-- str.strip(): drop leading and trailing whitespace. -/
def pstrip (s : String) : String :=
  String.mk (((s.data.dropWhile isStripChar).reverse.dropWhile isStripChar).reverse)

/-- Add one occurrence count: collections.Counter increment, also the df
increment of a defaultdict(int); a missing key is appended with count 1. -/
def bumpNat : List (String × Nat) → String → List (String × Nat)
  | [], t => [(t, 1)]
  | (k, v) :: rest, t =>
    if k = t then (k, v + 1) :: rest else (k, v) :: bumpNat rest t

/-- collections.Counter over the token list. -/
def countTokens (toks : List String) : List (String × Nat) :=
  toks.foldl (fun acc t => bumpNat acc t) []

/-- postings[token].append(entry) on a defaultdict(list): append to the
existing list, or create the key with a singleton list. -/
def appendPosting : List (String × List Posting) → String → Posting → List (String × List Posting)
  | [], t, p => [(t, [p])]
  | (k, v) :: rest, t, p =>
    if k = t then (k, v ++ [p]) :: rest else (k, v) :: appendPosting rest t p

/-- doc_norm[doc_id] += x on a defaultdict(float). -/
def bumpNorm : List (JKey × Rat) → JKey → Rat → List (JKey × Rat)
  | [], k, x => [(k, x)]
  | (k0, v) :: rest, k, x =>
    if k0 = k then (k0, v + x) :: rest else (k0, v) :: bumpNorm rest k x

/-- The mutable state of the document loop inside build_index. -/
structure BuildSt where
  doc_id_map : List (JKey × String)
  forward_index : List (JKey × String)
  postings : List (String × List Posting)
  df : List (String × Nat)
  next_id : Nat

/-- One iteration of the document loop of build_index: strip the extracted
text, skip it when empty, otherwise assign the next doc_id, record the file
path and text, and fold the token counts into postings and df. -/
def processDoc (st : BuildSt) (source raw : String) : BuildSt :=
  let text := pstrip raw
  if text = "" then st
  else
    let d := st.next_id
    let counts := countTokens (preprocess text)
    let pf := counts.foldl
      (fun (pf : List (String × List Posting) × List (String × Nat)) c =>
        (appendPosting pf.1 c.1 ⟨d, c.2⟩, bumpNat pf.2 c.1))
      (st.postings, st.df)
    { doc_id_map := st.doc_id_map ++ [(JKey.int d, source)]
      forward_index := st.forward_index ++ [(JKey.int d, text)]
      postings := pf.1
      df := pf.2
      next_id := d + 1 }

/-- The doc_norm accumulation pass of build_index (before the sqrt pass):
for every postings entry add ((1 + ln tf) * idf)^2 onto its document. -/
def normPass (log : Rat → Rat) (idf : List (String × Rat))
    (items : List (String × List Posting)) : List (JKey × Rat) :=
  items.foldl
    (fun nm kv =>
      let w_idf := (alookup idf kv.1).getD 0
      kv.2.foldl
        (fun nm e =>
          bumpNorm nm (JKey.int e.doc_id) (((1 + log ((e.tf : Nat) : Rat)) * w_idf) ^ 2))
        nm)
    []

/-- build_index over the ordered corpus of (source identifier, extracted raw
text) pairs - the loop body once a document format has been extracted; a
document whose extraction failed is simply absent from the input list. -/
def build_index (log sqrt : Rat → Rat) (documents : List (String × String)) : Index :=
  let st := documents.foldl (fun st doc => processDoc st doc.1 doc.2)
    ⟨[], [], [], [], 0⟩
  let postings := st.postings.map
    (fun kv => (kv.1, kv.2.mergeSort (fun a b => decide (a.doc_id ≤ b.doc_id))))
  let N := st.doc_id_map.length
  let idf := st.df.map
    (fun kv => (kv.1, log (((N : Rat) + 1) / (((kv.2 : Nat) : Rat) + 1)) + 1))
  let doc_norm := (normPass log idf postings).map (fun kv => (kv.1, sqrt kv.2))
  { doc_id_map := st.doc_id_map
    forward_index := st.forward_index
    postings := postings
    df := st.df
    idf := idf
    N := N
    doc_norm := doc_norm }

/-! ## Persistence (backend/index/storage.py) -/

/-- JSON object keys are strings: json.dump writes an int dict key as its
decimal string and json.load hands it back as a string. -/
def jkeyStr : JKey → JKey
  | JKey.int n => JKey.str (toString n)
  | JKey.str s => JKey.str s

/-- load_index(save_index(index)): numeric values (ints, floats) round-trip
exactly through json, string-keyed dicts are unchanged, and the dicts keyed
by int doc_ids (doc_id_map, forward_index, doc_norm) come back keyed by the
decimal strings of those ints. -/
def save_load_round_trip (index : Index) : Index :=
  { index with
    doc_id_map := index.doc_id_map.map (fun kv => (jkeyStr kv.1, kv.2))
    forward_index := index.forward_index.map (fun kv => (jkeyStr kv.1, kv.2))
    doc_norm := index.doc_norm.map (fun kv => (jkeyStr kv.1, kv.2)) }

/-! ## LRU cache (backend/service/lru_cache.py) -/

/-- The observable state of LRUCache: the hash map plus the doubly linked
recency list collapse to one association list held in recency order, most
recently used first (head.next first, tail.prev last). -/
structure LRUCache (α : Type) where
  capacity : Nat
  entries : List (String × α)
  hits : Nat
  misses : Nat
deriving DecidableEq

/-- Remove the node of a key from the recency list (the map holds at most
one node per key, the first occurrence). -/
def eraseKey {α : Type} : List (String × α) → String → List (String × α)
  | [], _ => []
  | (k, v) :: rest, key =>
    if k = key then rest else (k, v) :: eraseKey rest key

/-- LRUCache.__init__: a non-positive capacity raises ValueError. -/
def LRUCache.init (α : Type) (capacity : Int) : Except String (LRUCache α) :=
  if capacity ≤ 0 then Except.error ("capacity must be > 0")
  else Except.ok ⟨capacity.toNat, [], 0, 0⟩

/-- LRUCache.get: on a hit move the node to the front and count a hit, on a
miss count a miss and return None. -/
def LRUCache.get {α : Type} (c : LRUCache α) (key : String) : Option α × LRUCache α :=
  match alookup c.entries key with
  | none => (none, { c with misses := c.misses + 1 })
  | some v =>
    (some v, { c with entries := (key, v) :: eraseKey c.entries key, hits := c.hits + 1 })

/-- LRUCache.put: overwrite and move to front when present; otherwise insert
at the front and, when the size now exceeds capacity, evict the node before
the tail (the least recently used entry). -/
def LRUCache.put {α : Type} (c : LRUCache α) (key : String) (v : α) : LRUCache α :=
  if (alookup c.entries key).isSome then
    { c with entries := (key, v) :: eraseKey c.entries key }
  else
    let es := (key, v) :: c.entries
    if c.capacity < es.length then { c with entries := es.dropLast }
    else { c with entries := es }

/-! ## Search service (backend/service/search_service.py) -/

/-- SearchService state: the held index, the optional cache, and the query
counter (wall-clock latency bookkeeping is I/O and is not modelled). -/
structure SearchService where
  index : Index
  cache : Option (LRUCache (List (Nat × Rat)))
  total_queries : Nat

/-- SearchService.__init__: a positive cache_capacity constructs an LRUCache
(whose constructor then accepts it), otherwise caching is disabled. -/
def SearchService.init (index : Index) (cache_capacity : Int) : SearchService :=
  ⟨index,
   if 0 < cache_capacity then some ⟨cache_capacity.toNat, [], 0, 0⟩ else none,
   0⟩

/-- The single-space join of " ".join(tokens). -/
def joinSpace : List (List Char) → List Char
  | [] => []
  | [t] => t
  | t :: u :: rest => t ++ ' ' :: joinSpace (u :: rest)

/-- SearchService._normalize_key: tokenize and join with single spaces. -/
def normalize_key (query : String) : String :=
  String.mk (joinSpace ((preprocess query).map String.data))

/-- The pair a SearchService.search call hands back (elapsed_ms omitted). -/
structure SearchOutcome where
  results : List (Nat × Rat)
  cached : Bool
deriving DecidableEq

/-- SearchService.search: count the query; short-circuit a blank or
all-stopword query; otherwise consult the cache under the normalized key,
and on a miss run the core search, populating the cache only when the result
list is non-empty. -/
def SearchService.search (log : Rat → Rat) (s : SearchService) (query : String) :
    SearchOutcome × SearchService :=
  let s := { s with total_queries := s.total_queries + 1 }
  let q := pstrip query
  if q = "" then (⟨[], false⟩, s)
  else
    let key := normalize_key q
    if key = "" then (⟨[], false⟩, s)
    else
      match s.cache with
      | some c =>
        match c.get key with
        | (some v, c1) => (⟨v, true⟩, { s with cache := some c1 })
        | (none, c1) =>
          let results := DocuSearch.search log q s.index
          let c2 := if results.isEmpty then c1 else c1.put key results
          (⟨results, false⟩, { s with cache := some c2 })
      | none =>
        let results := DocuSearch.search log q s.index
        (⟨results, false⟩, s)

end DocuSearch

namespace DocuSearch

/-! ## Basic association-list lemmas -/

theorem alookup_eq_none {α β : Type} [DecidableEq α] (l : List (α × β)) (a : α) :
    alookup l a = none ↔ a ∉ l.map Prod.fst := by
  induction l with
  | nil => simp [alookup]
  | cons kv rest ih =>
    obtain ⟨k, v⟩ := kv
    by_cases h : k = a
    · subst h
      simp [alookup]
    · simp [alookup, h, ih, Ne.symm h]

theorem alookup_cons {α β : Type} [DecidableEq α] (k : α) (v : β) (rest : List (α × β)) (a : α) :
    alookup ((k, v) :: rest) a = if k = a then some v else alookup rest a := rfl

theorem alookup_map_value {α β γ : Type} [DecidableEq α]
    (f : α → β → γ) (l : List (α × β)) (a : α) :
    alookup (l.map (fun kv => (kv.1, f kv.1 kv.2))) a = (alookup l a).map (f a) := by
  induction l with
  | nil => rfl
  | cons kv rest ih =>
    by_cases h : kv.1 = a
    · subst h
      simp [alookup]
    · simp [alookup, h, ih]

theorem alookup_isSome_iff {α β : Type} [DecidableEq α] (l : List (α × β)) (a : α) :
    (alookup l a).isSome = true ↔ a ∈ l.map Prod.fst := by
  rw [← Option.not_isSome_iff_eq_none.symm.not_left, alookup_eq_none]
  simp

end DocuSearch

namespace DocuSearch

/-! ## Tokenizer lemmas -/

theorem splitTok_nil (acc : List Char) :
    splitTok [] acc = if acc.isEmpty then [] else [acc.reverse] := rfl

theorem splitTok_cons_space (cs acc : List Char) :
    splitTok (' ' :: cs) acc =
      if acc.isEmpty then splitTok cs [] else acc.reverse :: splitTok cs [] := rfl

theorem splitTok_cons_nospace {c : Char} (hc : c ≠ ' ') (cs acc : List Char) :
    splitTok (c :: cs) acc = splitTok cs (c :: acc) := by
  simp [splitTok, hc]

theorem splitTok_mem :
    ∀ (cs acc : List Char), (∀ c ∈ acc, c ≠ ' ') →
      ∀ tok ∈ splitTok cs acc,
        tok ≠ [] ∧ ∀ c ∈ tok, c ≠ ' ' ∧ (c ∈ cs ∨ c ∈ acc) := by
  intro cs
  induction cs with
  | nil =>
    intro acc hacc tok htok
    rw [splitTok_nil] at htok
    by_cases h : acc.isEmpty
    · simp [h] at htok
    · rw [if_neg h] at htok
      have htok2 := List.mem_singleton.mp htok
      subst htok2
      refine ⟨by simpa [List.isEmpty_iff] using h, fun c hc => ?_⟩
      rw [List.mem_reverse] at hc
      exact ⟨hacc c hc, Or.inr hc⟩
  | cons c0 cs ih =>
    intro acc hacc tok htok
    by_cases hsp : c0 = ' '
    · subst hsp
      rw [splitTok_cons_space] at htok
      have hrec : tok ∈ splitTok cs [] →
          tok ≠ [] ∧ ∀ c ∈ tok, c ≠ ' ' ∧ (c ∈ ' ' :: cs ∨ c ∈ acc) := by
        intro hmem
        obtain ⟨h1, h2⟩ := ih [] (by simp) tok hmem
        refine ⟨h1, fun c hc => ⟨(h2 c hc).1, ?_⟩⟩
        rcases (h2 c hc).2 with h3 | h3
        · exact Or.inl (List.mem_cons_of_mem _ h3)
        · simp at h3
      by_cases h : acc.isEmpty
      · rw [if_pos h] at htok
        exact hrec htok
      · rw [if_neg h] at htok
        rcases List.mem_cons.mp htok with htok | htok
        · subst htok
          refine ⟨by simpa [List.isEmpty_iff] using h, fun c hc => ?_⟩
          rw [List.mem_reverse] at hc
          exact ⟨hacc c hc, Or.inr hc⟩
        · exact hrec htok
    · rw [splitTok_cons_nospace hsp] at htok
      obtain ⟨h1, h2⟩ := ih (c0 :: acc)
        (by intro c hc
            rcases List.mem_cons.mp hc with h | h
            · subst h; exact hsp
            · exact hacc c h) tok htok
      refine ⟨h1, fun c hc => ⟨(h2 c hc).1, ?_⟩⟩
      rcases (h2 c hc).2 with h3 | h3
      · exact Or.inl (List.mem_cons_of_mem _ h3)
      · rcases List.mem_cons.mp h3 with h4 | h4
        · exact Or.inl (by simp [h4])
        · exact Or.inr h4

theorem splitTok_append_nospace :
    ∀ (t cs acc : List Char), (∀ c ∈ t, c ≠ ' ') →
      splitTok (t ++ cs) acc = splitTok cs (t.reverse ++ acc) := by
  intro t
  induction t with
  | nil => intro cs acc _; simp
  | cons c t ih =>
    intro cs acc ht
    have hc : c ≠ ' ' := ht c (by simp)
    rw [List.cons_append, splitTok_cons_nospace hc,
      ih cs (c :: acc) (fun x hx => ht x (by simp [hx]))]
    simp

theorem splitTok_joinSpace :
    ∀ ts : List (List Char), (∀ t ∈ ts, t ≠ [] ∧ ∀ c ∈ t, c ≠ ' ') →
      splitTok (joinSpace ts) [] = ts := by
  intro ts
  induction ts with
  | nil => intro _; rfl
  | cons t rest ih =>
    intro h
    obtain ⟨ht1, ht2⟩ := h t (by simp)
    match rest with
    | [] =>
      have h2 := splitTok_append_nospace t [] [] ht2
      simp only [List.append_nil] at h2
      rw [show joinSpace [t] = t from rfl, h2, splitTok_nil]
      rw [if_neg (by simp [ht1])]
      simp
    | u :: rest2 =>
      rw [show joinSpace (t :: u :: rest2) = t ++ ' ' :: joinSpace (u :: rest2) from rfl]
      rw [splitTok_append_nospace t _ [] ht2]
      rw [List.append_nil, splitTok_cons_space]
      rw [if_neg (by simp [ht1])]
      rw [List.reverse_reverse]
      congr 1
      exact ih (fun x hx => h x (by simp [hx]))

theorem mem_joinSpace :
    ∀ (ts : List (List Char)) (c : Char), c ∈ joinSpace ts → c = ' ' ∨ ∃ t ∈ ts, c ∈ t := by
  intro ts
  induction ts with
  | nil => intro c hc; simp [joinSpace] at hc
  | cons t rest ih =>
    intro c hc
    match rest with
    | [] =>
      exact Or.inr ⟨t, by simp, hc⟩
    | u :: rest2 =>
      rw [show joinSpace (t :: u :: rest2) = t ++ ' ' :: joinSpace (u :: rest2) from rfl] at hc
      simp only [List.mem_append, List.mem_cons] at hc
      rcases hc with hc | hc | hc
      · exact Or.inr ⟨t, by simp, hc⟩
      · exact Or.inl hc
      · rcases ih c hc with h | ⟨t2, ht2, hct2⟩
        · exact Or.inl h
        · exact Or.inr ⟨t2, by simp [ht2], hct2⟩

theorem subChar_cases (c : Char) : subChar c = ' ' ∨ isTokChar (subChar c) = true := by
  unfold subChar
  by_cases h : isTokChar c = true
  · simp [h]
  · simp [h]

theorem isTokChar_ne_space {c : Char} (h : isTokChar c = true) : c ≠ ' ' := by
  intro hc
  subst hc
  exact absurd h (by decide)

theorem lowerChar_of_tokChar {c : Char} (h : isTokChar c = true) : lowerChar c = c := by
  have h1 : ¬((65 ≤ c.toNat && c.toNat ≤ 90) = true) := by
    simp only [isTokChar, Bool.or_eq_true, Bool.and_eq_true, decide_eq_true_eq] at h
    simp only [Bool.and_eq_true, decide_eq_true_eq, not_and]
    omega
  simp [lowerChar, h1]

theorem subChar_of_tokChar {c : Char} (h : isTokChar c = true) : subChar c = c := by
  simp [subChar, h]

theorem lowerChar_space : lowerChar ' ' = ' ' := by decide

theorem subChar_space : subChar ' ' = ' ' := by decide

end DocuSearch

namespace DocuSearch

theorem map_id_of_eq {α : Type} (f : α → α) :
    ∀ l : List α, (∀ x ∈ l, f x = x) → l.map f = l := by
  intro l
  induction l with
  | nil => intro _; rfl
  | cons x xs ih =>
    intro h
    simp only [List.map_cons, h x (by simp), List.cons.injEq, true_and]
    exact ih (fun y hy => h y (by simp [hy]))

theorem preprocess_of_ne_empty {text : String} (h : ¬(text = "")) :
    preprocess text =
      ((splitTok ((text.data.map lowerChar).map subChar) []).map String.mk).filter
        (fun t => !(t == "") && !(STOPWORDS.contains t)) := by
  simp only [preprocess, if_neg h]

theorem preprocess_mem (s : String) :
    ∀ t ∈ preprocess s,
      t.data ≠ [] ∧ (∀ c ∈ t.data, isTokChar c = true)
        ∧ ((!(t == "") && !(STOPWORDS.contains t)) = true) := by
  intro t ht
  by_cases hs : s = ""
  · subst hs
    simp [preprocess] at ht
  · rw [preprocess_of_ne_empty hs] at ht
    have hfil := List.mem_filter.mp ht
    obtain ⟨tok, htok, hmk⟩ := List.mem_map.mp hfil.1
    obtain ⟨h1, h2⟩ := splitTok_mem _ [] (by simp) tok htok
    have hdata : t.data = tok := by rw [← hmk]
    refine ⟨by rw [hdata]; exact h1, ?_, hfil.2⟩
    intro c hc
    rw [hdata] at hc
    obtain ⟨hne, hin⟩ := h2 c hc
    rcases hin with hin | hin
    · obtain ⟨c0, _, hc0⟩ := List.mem_map.mp hin
      rcases subChar_cases c0 with h3 | h3
      · rw [← hc0] at hne
        exact absurd h3 hne
      · rw [← hc0]
        exact h3
    · simp at hin

theorem joinSpace_ne_nil {t : List Char} (rest : List (List Char)) (ht : t ≠ []) :
    joinSpace (t :: rest) ≠ [] := by
  match rest with
  | [] => exact ht
  | u :: rest2 =>
    rw [show joinSpace (t :: u :: rest2) = t ++ ' ' :: joinSpace (u :: rest2) from rfl]
    simp

theorem preprocess_normalize_key (s : String) :
    preprocess (normalize_key s) = preprocess s := by
  by_cases hts : preprocess s = []
  · rw [show normalize_key s = String.mk (joinSpace ((preprocess s).map String.data)) from rfl,
      hts]
    rfl
  · obtain ⟨t0, rest, hcons⟩ := List.exists_cons_of_ne_nil hts
    have hgood := preprocess_mem s
    have hkeydata : (normalize_key s).data = joinSpace ((preprocess s).map String.data) := rfl
    have hkey : ¬(normalize_key s = "") := by
      intro h
      have : (normalize_key s).data = [] := by rw [h]
      rw [hkeydata, hcons] at this
      exact joinSpace_ne_nil _ ((hgood t0 (by rw [hcons]; simp)).1) this
    rw [preprocess_of_ne_empty hkey]
    have hfix : ((normalize_key s).data.map lowerChar).map subChar = (normalize_key s).data := by
      rw [List.map_map, map_id_of_eq]
      intro c hc
      rw [hkeydata] at hc
      rcases mem_joinSpace _ c hc with h | ⟨td, htd, hctd⟩
      · subst h
        simp [Function.comp, lowerChar_space, subChar_space]
      · obtain ⟨t, htmem, htdata⟩ := List.mem_map.mp htd
        have htokc : isTokChar c = true := by
          apply (hgood t htmem).2.1
          rw [htdata]
          exact hctd
        simp [Function.comp, lowerChar_of_tokChar htokc, subChar_of_tokChar htokc]
    have hside : ∀ td ∈ (preprocess s).map String.data, td ≠ [] ∧ ∀ c ∈ td, c ≠ ' ' := by
      intro td htd
      obtain ⟨t, htmem, htdata⟩ := List.mem_map.mp htd
      refine ⟨by rw [← htdata]; exact (hgood t htmem).1, ?_⟩
      intro c hc
      rw [← htdata] at hc
      exact isTokChar_ne_space ((hgood t htmem).2.1 c hc)
    rw [hfix, hkeydata, splitTok_joinSpace _ hside, List.map_map]
    rw [map_id_of_eq (String.mk ∘ String.data) (preprocess s) (fun t _ => rfl)]
    exact List.filter_eq_self.mpr (fun t ht => (hgood t ht).2.2)

end DocuSearch

namespace DocuSearch

/-- C10: the tokenizer is idempotent with respect to cache-key normalization:
for every input string s, preprocess applied to the single-space join of
preprocess(s) (which is exactly the Search Service normalized cache key)
returns preprocess(s) itself, so the normalized key re-normalizes to itself. -/
theorem tokenizer_idempotent_cache_key (s : String) :
    preprocess (normalize_key s) = preprocess s
    ∧ normalize_key (normalize_key s) = normalize_key s := by
  refine ⟨preprocess_normalize_key s, ?_⟩
  rw [show normalize_key (normalize_key s)
      = String.mk (joinSpace ((preprocess (normalize_key s)).map String.data)) from rfl]
  rw [preprocess_normalize_key s]
  rfl

/-- C3: for every index and query, search returns the empty list (and in this
total model in particular cannot raise) whenever the query tokenizes to no
terms, or some query term has no postings entry in the index. -/
theorem search_empty_on_no_terms_or_missing_postings
    (log : Rat → Rat) (query : String) (index : Index)
    (h : preprocess query = [] ∨ ∃ t ∈ preprocess query, alookup index.postings t = none) :
    search log query index = [] := by
  rcases h with h | ⟨t, ht, hnone⟩
  · simp [search, h]
  · by_cases he : (preprocess query).isEmpty
    · simp [search, he]
    · have hany : (preprocess query).any (fun t => (plistOf index t).isEmpty) = true :=
        List.any_eq_true.mpr ⟨t, ht, by simp [plistOf, hnone]⟩
    
      simp [search, he, hany]

/-- Witness for C3 at a concrete input: the empty corpus index and a query
whose single term has no postings entry. -/
theorem search_empty_on_no_terms_or_missing_postings_witness :
    search (fun _ => 0) ("hello") (⟨[], [], [], [], [], 0, []⟩ : Index) = [] :=
  search_empty_on_no_terms_or_missing_postings (fun _ => 0) ("hello") _
    (Or.inr ⟨"hello", by decide, rfl⟩)

/-- C9: LRUCache construction with capacity at most 0 is rejected eagerly with
an error; a positive capacity yields a cache whose capacity is exactly the
requested one, never a coerced default. -/
theorem lru_init_rejects_nonpositive_capacity (α : Type) (c : Int) :
    (c ≤ 0 → LRUCache.init α c = Except.error ("capacity must be > 0"))
    ∧ (0 < c →
        LRUCache.init α c = Except.ok ⟨c.toNat, [], 0, 0⟩ ∧ ((c.toNat : Int) = c)) := by
  constructor
  · intro h
    simp [LRUCache.init, h]
  · intro h
    refine ⟨by simp [LRUCache.init, not_le.mpr h], Int.toNat_of_nonneg (le_of_lt h)⟩

/-- Witness for C9 at capacity 0 (rejected) and capacity 3 (accepted as is). -/
theorem lru_init_rejects_nonpositive_capacity_witness :
    LRUCache.init Nat 0 = Except.error ("capacity must be > 0")
    ∧ LRUCache.init Nat 3 = Except.ok ⟨(3 : Int).toNat, [], 0, 0⟩ :=
  ⟨(lru_init_rejects_nonpositive_capacity Nat 0).1 (by norm_num),
   ((lru_init_rejects_nonpositive_capacity Nat 3).2 (by norm_num)).1⟩

end DocuSearch

namespace DocuSearch

/-! ## LRU cache lemmas -/

theorem take_append_take {α : Type} (xs ys : List α) (n : Nat) :
    (xs ++ ys.take n).take n = (xs ++ ys).take n := by
  rw [List.take_append_eq_append_take, List.take_append_eq_append_take, List.take_take]
  congr 2
  exact Nat.min_eq_left (Nat.sub_le n xs.length)

theorem put_capacity {α : Type} (c : LRUCache α) (key : String) (v : α) :
    (c.put key v).capacity = c.capacity := by
  unfold LRUCache.put
  dsimp only
  split
  · rfl
  · split
    · rfl
    · rfl

theorem put_of_not_mem {α : Type} (c : LRUCache α) (key : String) (v : α)
    (h : alookup c.entries key = none) (hlen : c.entries.length ≤ c.capacity) :
    (c.put key v).entries = ((key, v) :: c.entries).take c.capacity := by
  unfold LRUCache.put
  rw [h]
  simp only [Option.isSome_none, Bool.false_eq_true, if_false]
  by_cases hfull : c.capacity < ((key, v) :: c.entries).length
  · rw [if_pos hfull]
    have hlen2 : c.entries.length = c.capacity := by
      simp only [List.length_cons] at hfull
      omega
    simp only [List.dropLast_eq_take, List.length_cons, hlen2, Nat.add_sub_cancel]
  · rw [if_neg hfull]
    have hle : ((key, v) :: c.entries).length ≤ c.capacity := Nat.le_of_not_lt hfull
    rw [List.take_of_length_le hle]

theorem put_full_evicts_last {α : Type} (c : LRUCache α) (key : String) (val : α)
    (hcap : 0 < c.capacity) (hfull : c.entries.length = c.capacity)
    (hnew : alookup c.entries key = none) :
    (c.put key val).entries = (key, val) :: c.entries.dropLast := by
  unfold LRUCache.put
  rw [hnew]
  simp only [Option.isSome_none, Bool.false_eq_true, if_false]
  rw [if_pos (by simp only [List.length_cons, hfull]; omega)]
  have hne : c.entries ≠ [] := by
    intro h
    rw [h] at hfull
    simp at hfull
    omega
  obtain ⟨e, es, hees⟩ := List.exists_cons_of_ne_nil hne
  rw [hees]
  rfl

theorem foldl_put_keys {α : Type} (v : String → α) :
    ∀ (ks : List String) (c : LRUCache α), ks.Nodup →
      (∀ key ∈ ks, alookup c.entries key = none) →
      c.entries.length ≤ c.capacity →
      ((ks.foldl (fun c key => c.put key (v key)) c).entries.map Prod.fst
          = (ks.reverse ++ c.entries.map Prod.fst).take c.capacity)
      ∧ (ks.foldl (fun c key => c.put key (v key)) c).capacity = c.capacity
      ∧ (ks.foldl (fun c key => c.put key (v key)) c).entries.length ≤ c.capacity := by
  intro ks
  induction ks with
  | nil =>
    intro c _ _ hlen
    refine ⟨?_, rfl, hlen⟩
    simp only [List.foldl_nil]
    rw [List.reverse_nil, List.nil_append,
      List.take_of_length_le (by simpa using hlen)]
  | cons k ks ih =>
    intro c hnd hnone hlen
    simp only [List.foldl_cons]
    have hk : alookup c.entries k = none := hnone k (by simp)
    have he1 : (c.put k (v k)).entries = ((k, v k) :: c.entries).take c.capacity :=
      put_of_not_mem c k (v k) hk hlen
    have hcap1 : (c.put k (v k)).capacity = c.capacity := put_capacity c k (v k)
    have hkeys1 : (c.put k (v k)).entries.map Prod.fst
        = (k :: c.entries.map Prod.fst).take c.capacity := by
      rw [he1, List.map_take]
      rfl
    have hlen1 : (c.put k (v k)).entries.length ≤ (c.put k (v k)).capacity := by
      rw [he1, hcap1, List.length_take]
      omega
    have hnone1 : ∀ key ∈ ks, alookup (c.put k (v k)).entries key = none := by
      intro key hkey
      rw [alookup_eq_none, hkeys1]
      intro hmem
      have hmem2 := List.mem_of_mem_take hmem
      rcases List.mem_cons.mp hmem2 with h | h
      · exact (List.nodup_cons.mp hnd).1 (h ▸ hkey)
      · exact (alookup_eq_none c.entries key).mp (hnone key (by simp [hkey])) h
    obtain ⟨ih1, ih2, ih3⟩ := ih (c.put k (v k)) (List.nodup_cons.mp hnd).2 hnone1 hlen1
    rw [hcap1] at ih1 ih2 ih3
    refine ⟨?_, ih2, ih3⟩
    rw [ih1, hkeys1, take_append_take, List.reverse_cons, List.append_assoc]
    rfl

/-- C5: starting from a fresh cache of capacity cap, after putting cap + k
distinct keys the cache holds exactly the cap most recently touched keys, in
recency order; moreover any put on a full cache under a fresh key evicts
exactly the least recently used entry (the last of the recency list) and no
other. -/
theorem lru_put_keeps_most_recent {α : Type} (cap k : Nat) (v : String → α)
    (ks : List String) (hcap : 0 < cap) (hk : 1 ≤ k)
    (hlen : ks.length = cap + k) (hnd : ks.Nodup) :
    ((ks.foldl (fun c key => c.put key (v key)) (⟨cap, [], 0, 0⟩ : LRUCache α)).entries.map
        Prod.fst = ks.reverse.take cap)
    ∧ (∀ (c : LRUCache α) (key : String) (val : α),
        0 < c.capacity → c.entries.length = c.capacity → alookup c.entries key = none →
        (c.put key val).entries = (key, val) :: c.entries.dropLast) := by
  constructor
  · have h := (foldl_put_keys v ks (⟨cap, [], 0, 0⟩ : LRUCache α) hnd
      (fun key _ => rfl) (by simp)).1
    simpa using h
  · intro c key val hcap2 hfull hnew
    exact put_full_evicts_last c key val hcap2 hfull hnew

/-- Witness for C5: capacity 2, three distinct keys; the cache retains the two
most recent, and a put on a full capacity-2 cache evicts only the last entry. -/
theorem lru_put_keeps_most_recent_witness :
    ((["a", "b", "c"].foldl (fun c key => c.put key 0) (⟨2, [], 0, 0⟩ : LRUCache Nat)).entries.map
        Prod.fst = ["a", "b", "c"].reverse.take 2)
    ∧ (((⟨2, [("b", 0), ("a", 0)], 0, 0⟩ : LRUCache Nat).put ("c") 0).entries
        = ("c", 0) :: [("b", (0 : Nat)), ("a", 0)].dropLast) :=
  ⟨(lru_put_keeps_most_recent 2 1 (fun _ => 0) ["a", "b", "c"] (by norm_num) (by norm_num)
      (by decide) (by decide)).1,
   (lru_put_keeps_most_recent 2 1 (fun _ => 0) ["a", "b", "c"] (by norm_num) (by norm_num)
      (by decide) (by decide)).2 ⟨2, [("b", 0), ("a", 0)], 0, 0⟩ ("c") 0 (by norm_num)
      (by decide) (by decide)⟩

end DocuSearch

namespace DocuSearch

/-! ## Query engine lemmas -/

theorem rankLe_trans (a b c : Nat × Rat) :
    rankLe a b = true → rankLe b c = true → rankLe a c = true := by
  simp only [rankLe, Bool.or_eq_true, Bool.and_eq_true, decide_eq_true_eq]
  intro hab hbc
  rcases hab with h1 | ⟨h1, h1d⟩
  · rcases hbc with h2 | ⟨h2, h2d⟩
    · exact Or.inl (lt_trans h2 h1)
    · exact Or.inl (h2 ▸ h1)
  · rcases hbc with h2 | ⟨h2, h2d⟩
    · exact Or.inl (h1 ▸ h2)
    · exact Or.inr ⟨h1.trans h2, le_trans h1d h2d⟩

theorem rankLe_total (a b : Nat × Rat) : (rankLe a b || rankLe b a) = true := by
  simp only [rankLe, Bool.or_eq_true, Bool.and_eq_true, decide_eq_true_eq]
  rcases lt_trichotomy a.2 b.2 with h | h | h
  · exact Or.inr (Or.inl h)
  · rcases Nat.le_total a.1 b.1 with h2 | h2
    · exact Or.inl (Or.inr ⟨h, h2⟩)
    · exact Or.inr (Or.inr ⟨h.symm, h2⟩)
  · exact Or.inl (Or.inl h)


theorem and_intersect_mem (ls : List (List Posting)) (hne : ls ≠ []) (d : Nat) :
    d ∈ and_intersect ls ↔ ∀ pl ∈ ls, d ∈ pl.map Posting.doc_id := by
  have hperm := List.mergeSort_perm ls (fun a b => decide (a.length ≤ b.length))
  rcases hms : ls.mergeSort (fun a b => decide (a.length ≤ b.length)) with _ | ⟨base, rest⟩
  · rw [hms] at hperm
    exact absurd (hperm.symm.eq_nil) hne
  · rw [hms] at hperm
    have hmem : ∀ pl : List Posting, (pl ∈ ls ↔ pl ∈ base :: rest) :=
      fun pl => hperm.symm.mem_iff
    simp only [and_intersect, hms]
    rw [List.Perm.mem_iff (List.mergeSort_perm _ _)]
    simp only [List.mem_filter, List.mem_dedup, List.mem_map, List.all_eq_true,
      List.any_eq_true, decide_eq_true_eq]
    constructor
    · rintro ⟨⟨e, he, hed⟩, hall⟩ pl hpl
      rcases List.mem_cons.mp ((hmem pl).mp hpl) with h | h
      · subst h
        exact ⟨e, he, hed⟩
      · obtain ⟨e2, he2, hed2⟩ := hall pl h
        exact ⟨e2, he2, hed2⟩
    · intro hall
      refine ⟨?_, ?_⟩
      · obtain ⟨e, he, hed⟩ := hall base ((hmem base).mpr (by simp))
        exact ⟨e, he, hed⟩
      · intro pl hpl
        obtain ⟨e, he, hed⟩ := hall pl ((hmem pl).mpr (by simp [hpl]))
        exact ⟨e, he, hed⟩

theorem and_intersect_nodup (ls : List (List Posting)) : (and_intersect ls).Nodup := by
  rcases hms : ls.mergeSort (fun a b => decide (a.length ≤ b.length)) with _ | ⟨base, rest⟩
  · simp only [and_intersect, hms]
    exact List.nodup_nil
  · simp only [and_intersect, hms]
    refine (List.Perm.nodup_iff (List.mergeSort_perm _ _)).mpr ?_
    exact List.Nodup.filter _ (List.nodup_dedup _)

theorem search_eq_of_hyp (log : Rat → Rat) (query : String) (index : Index)
    (htok : preprocess query ≠ [])
    (hpost : ∀ t ∈ preprocess query, plistOf index t ≠ []) :
    search log query index
      = ((and_intersect ((preprocess query).map (plistOf index))).map
          (fun d => (d, applyNorm index d (scoreOf log index (preprocess query) d)))).mergeSort
            rankLe := by
  have h1 : (preprocess query).isEmpty = false := by
    simpa [List.isEmpty_iff] using htok
  have h2 : (preprocess query).any (fun t => (plistOf index t).isEmpty) = false := by
    rw [List.any_eq_false]
    intro t ht
    simpa [List.isEmpty_iff] using hpost t ht
  by_cases h3 :
      (and_intersect ((preprocess query).map (plistOf index))).isEmpty
  · have h4 : and_intersect ((preprocess query).map (plistOf index)) = [] :=
      List.isEmpty_iff.mp h3
    simp [search, h1, h2, h3, h4]
  · simp [search, h1, h2, h3]

/-- C1: for a query with at least one term where every query term has a
non-empty postings list, the doc_ids returned by search are exactly the
intersection of the doc_id sets of those postings lists, each appearing once,
and the result is sorted by score descending with exact ties broken by
ascending doc_id. -/
theorem search_conjunctive_and_ranked (log : Rat → Rat) (query : String) (index : Index)
    (htok : preprocess query ≠ [])
    (hpost : ∀ t ∈ preprocess query, plistOf index t ≠ []) :
    (∀ d : Nat, (d ∈ (search log query index).map Prod.fst ↔
        ∀ t ∈ preprocess query, d ∈ (plistOf index t).map Posting.doc_id))
    ∧ ((search log query index).map Prod.fst).Nodup
    ∧ (search log query index).Pairwise
        (fun a b => b.2 < a.2 ∨ (a.2 = b.2 ∧ a.1 < b.1)) := by
  rw [search_eq_of_hyp log query index htok hpost]
  set cands := and_intersect ((preprocess query).map (plistOf index)) with hcands
  set scores := cands.map
    (fun d => (d, applyNorm index d (scoreOf log index (preprocess query) d))) with hscores
  have hlists : (preprocess query).map (plistOf index) ≠ [] := by
    intro h
    exact htok (List.map_eq_nil_iff.mp h)
  have hperm : (scores.mergeSort rankLe).Perm scores := List.mergeSort_perm _ _
  have hfst : scores.map Prod.fst = cands := by
    rw [hscores, List.map_map]
    exact map_id_of_eq _ _ (fun d _ => rfl)
  have hcnodup : cands.Nodup := and_intersect_nodup _
  have hfstperm : ((scores.mergeSort rankLe).map Prod.fst).Perm cands := by
    rw [← hfst]
    exact hperm.map Prod.fst
  refine ⟨?_, ?_, ?_⟩
  · intro d
    rw [hfstperm.mem_iff, hcands, and_intersect_mem _ hlists d]
    constructor
    · intro h t ht
      exact h (plistOf index t) (List.mem_map.mpr ⟨t, ht, rfl⟩)
    · intro h pl hpl
      obtain ⟨t, ht, rfl⟩ := List.mem_map.mp hpl
      exact h t ht
  · exact hfstperm.nodup_iff.mpr hcnodup
  · have hsorted := List.sorted_mergeSort rankLe_trans rankLe_total scores
    have hnodupfst : ((scores.mergeSort rankLe).map Prod.fst).Nodup :=
      hfstperm.nodup_iff.mpr hcnodup
    have hpwne : (scores.mergeSort rankLe).Pairwise (fun a b => a.1 ≠ b.1) :=
      (List.pairwise_map).mp hnodupfst
    refine (hsorted.and hpwne).imp ?_
    intro a b hab
    obtain ⟨hle, hne⟩ := hab
    simp only [rankLe, Bool.or_eq_true, Bool.and_eq_true, decide_eq_true_eq] at hle
    rcases hle with h | ⟨h1, h2⟩
    · exact Or.inl h
    · exact Or.inr ⟨h1, lt_of_le_of_ne h2 hne⟩

/-- Witness for C1: a two-term query against a small literal index; doc 0 is
in both postings lists, and the returned doc_id set is duplicate-free. -/
theorem search_conjunctive_and_ranked_witness :
    ((0 : Nat) ∈ (search (fun _ => 0) ("hello world")
        (⟨[], [], [("hello", [⟨0, 1⟩, ⟨1, 2⟩]), ("world", [⟨0, 3⟩])], [], [], 2, []⟩ : Index)).map
          Prod.fst)
    ∧ ((search (fun _ => 0) ("hello world")
        (⟨[], [], [("hello", [⟨0, 1⟩, ⟨1, 2⟩]), ("world", [⟨0, 3⟩])], [], [], 2, []⟩ : Index)).map
          Prod.fst).Nodup := by
  have h := search_conjunctive_and_ranked (fun _ => 0) ("hello world")
    (⟨[], [], [("hello", [⟨0, 1⟩, ⟨1, 2⟩]), ("world", [⟨0, 3⟩])], [], [], 2, []⟩ : Index)
    (by decide) (by decide)
  exact ⟨(h.1 0).mpr (by decide), h.2.1⟩

end DocuSearch

namespace DocuSearch

/-! ## Search service lemmas -/

theorem lru_get_miss {α : Type} (c : LRUCache α) (key : String)
    (h : alookup c.entries key = none) :
    c.get key = (none, { c with misses := c.misses + 1 }) := by
  unfold LRUCache.get
  rw [h]

theorem lru_get_hit {α : Type} (c : LRUCache α) (key : String) (v : α)
    (h : alookup c.entries key = some v) :
    c.get key
      = (some v, { c with entries := (key, v) :: eraseKey c.entries key,
                          hits := c.hits + 1 }) := by
  unfold LRUCache.get
  rw [h]

theorem lru_put_fresh {α : Type} (cap : Nat) (hcap : 0 < cap) (key : String) (v : α)
    (h m : Nat) :
    (⟨cap, [], h, m⟩ : LRUCache α).put key v = ⟨cap, [(key, v)], h, m⟩ := by
  unfold LRUCache.put
  simp only [alookup, Option.isSome_none, Bool.false_eq_true, if_false]
  rw [if_neg (by simp only [List.length_cons, List.length_nil]; omega)]

theorem ssearch_miss (log : Rat → Rat) (idx : Index) (capn : Nat)
    (es : List (String × List (Nat × Rat))) (h m tq : Nat) (query : String)
    (hq : ¬(pstrip query = "")) (hkey : ¬(normalize_key (pstrip query) = ""))
    (hmiss : alookup es (normalize_key (pstrip query)) = none) :
    SearchService.search log ⟨idx, some ⟨capn, es, h, m⟩, tq⟩ query =
      (⟨DocuSearch.search log (pstrip query) idx, false⟩,
       ⟨idx,
        some (if (DocuSearch.search log (pstrip query) idx).isEmpty
              then (⟨capn, es, h, m + 1⟩ : LRUCache (List (Nat × Rat)))
              else (⟨capn, es, h, m + 1⟩ : LRUCache (List (Nat × Rat))).put
                     (normalize_key (pstrip query))
                     (DocuSearch.search log (pstrip query) idx)),
        tq + 1⟩) := by
  have hget : (⟨capn, es, h, m⟩ : LRUCache (List (Nat × Rat))).get
      (normalize_key (pstrip query))
      = (none, ⟨capn, es, h, m + 1⟩) := lru_get_miss _ _ hmiss
  simp only [SearchService.search, if_neg hq, if_neg hkey, hget]

theorem ssearch_hit (log : Rat → Rat) (idx : Index) (capn : Nat)
    (es : List (String × List (Nat × Rat))) (h m tq : Nat) (query : String)
    (v : List (Nat × Rat))
    (hq : ¬(pstrip query = "")) (hkey : ¬(normalize_key (pstrip query) = ""))
    (hhit : alookup es (normalize_key (pstrip query)) = some v) :
    SearchService.search log ⟨idx, some ⟨capn, es, h, m⟩, tq⟩ query =
      (⟨v, true⟩,
       ⟨idx,
        some ⟨capn, (normalize_key (pstrip query), v)
                      :: eraseKey es (normalize_key (pstrip query)), h + 1, m⟩,
        tq + 1⟩) := by
  have hget : (⟨capn, es, h, m⟩ : LRUCache (List (Nat × Rat))).get
      (normalize_key (pstrip query))
      = (some v, ⟨capn, (normalize_key (pstrip query), v)
                          :: eraseKey es (normalize_key (pstrip query)), h + 1, m⟩) :=
    lru_get_hit _ _ v hhit
  simp only [SearchService.search, if_neg hq, if_neg hkey, hget]

/-- Counterexample for C6 as stated: a query whose result list is empty does
not populate the cache, so the second identical call is again not cached and
the hit counter stays 0 (two misses are recorded instead). -/
theorem service_second_query_not_cached_on_empty_results :
    ((SearchService.search (fun _ => 0)
        (SearchService.init (⟨[], [], [], [], [], 0, []⟩ : Index) 1) ("hello")).1.cached
      = false)
    ∧ ((SearchService.search (fun _ => 0)
        (SearchService.search (fun _ => 0)
          (SearchService.init (⟨[], [], [], [], [], 0, []⟩ : Index) 1) ("hello")).2
        ("hello")).1.cached = false)
    ∧ ((SearchService.search (fun _ => 0)
        (SearchService.search (fun _ => 0)
          (SearchService.init (⟨[], [], [], [], [], 0, []⟩ : Index) 1) ("hello")).2
        ("hello")).2.cache.map LRUCache.hits = some 0) := by
  refine ⟨by decide, by decide, by decide⟩

/-- C6 amended: with caching enabled on a fresh service, issuing twice an
identical query that normalizes to a non-empty key and whose result list is
non-empty yields wasCached false on the first call and true on the second,
with the cache hit counter equal to 1 afterwards. -/
theorem service_second_identical_query_cached
    (log : Rat → Rat) (index : Index) (cap : Int) (query : String)
    (hcap : 0 < cap)
    (hkey : ¬(normalize_key (pstrip query) = ""))
    (hres : ¬(DocuSearch.search log (pstrip query) index = [])) :
    ((SearchService.search log (SearchService.init index cap) query).1.cached = false)
    ∧ ((SearchService.search log
        (SearchService.search log (SearchService.init index cap) query).2 query).1.cached
      = true)
    ∧ ((SearchService.search log
        (SearchService.search log (SearchService.init index cap) query).2 query).2.cache.map
          LRUCache.hits = some 1) := by
  have hq : ¬(pstrip query = "") := by
    intro h
    apply hkey
    rw [h]
    rfl
  have hcapnat : 0 < cap.toNat := by omega
  have hemp : (DocuSearch.search log (pstrip query) index).isEmpty = false := by
    simpa [List.isEmpty_iff] using hres
  have hinit : SearchService.init index cap
      = ⟨index, some ⟨cap.toNat, [], 0, 0⟩, 0⟩ := by
    simp [SearchService.init, hcap]
  have h1 : SearchService.search log ⟨index, some ⟨cap.toNat, [], 0, 0⟩, 0⟩ query
      = (⟨DocuSearch.search log (pstrip query) index, false⟩,
         ⟨index,
          some ⟨cap.toNat,
                [(normalize_key (pstrip query), DocuSearch.search log (pstrip query) index)],
                0, 0 + 1⟩,
          0 + 1⟩) := by
    rw [ssearch_miss log index cap.toNat [] 0 0 0 query hq hkey rfl]
    rw [if_neg (by rw [hemp]; exact Bool.false_ne_true)]
    rw [lru_put_fresh cap.toNat hcapnat (normalize_key (pstrip query))
      (DocuSearch.search log (pstrip query) index) 0 (0 + 1)]
  have h2 : SearchService.search log
      ⟨index,
       some ⟨cap.toNat,
             [(normalize_key (pstrip query), DocuSearch.search log (pstrip query) index)],
             0, 0 + 1⟩,
       0 + 1⟩ query
      = (⟨DocuSearch.search log (pstrip query) index, true⟩,
         ⟨index,
          some ⟨cap.toNat,
                (normalize_key (pstrip query), DocuSearch.search log (pstrip query) index)
                  :: eraseKey
                      [(normalize_key (pstrip query),
                        DocuSearch.search log (pstrip query) index)]
                      (normalize_key (pstrip query)),
                0 + 1, 0 + 1⟩,
          0 + 1 + 1⟩) := by
    rw [ssearch_hit log index cap.toNat
      [(normalize_key (pstrip query), DocuSearch.search log (pstrip query) index)]
      0 (0 + 1) (0 + 1) query (DocuSearch.search log (pstrip query) index) hq hkey
      (by simp [alookup])]
  rw [hinit, h1, h2]
  exact ⟨rfl, rfl, rfl⟩

end DocuSearch

namespace DocuSearch

/-- Witness for C6 amended, on a one-document literal index where the query
has a non-empty result list. -/
theorem service_second_identical_query_cached_witness :
    ((SearchService.search (fun _ => 0)
        (SearchService.init
          (⟨[], [], [("hello", [⟨0, 1⟩])], [("hello", 1)], [("hello", 1)], 1,
            [(JKey.int 0, 1)]⟩ : Index) 4) ("hello")).1.cached = false)
    ∧ ((SearchService.search (fun _ => 0)
        (SearchService.search (fun _ => 0)
          (SearchService.init
            (⟨[], [], [("hello", [⟨0, 1⟩])], [("hello", 1)], [("hello", 1)], 1,
              [(JKey.int 0, 1)]⟩ : Index) 4) ("hello")).2 ("hello")).1.cached = true) := by
  have hth := service_second_identical_query_cached (fun _ => 0)
    (⟨[], [], [("hello", [⟨0, 1⟩])], [("hello", 1)], [("hello", 1)], 1,
      [(JKey.int 0, 1)]⟩ : Index) 4 ("hello") (by norm_num) (by decide) ?hres
  case hres =>
    rw [search_eq_of_hyp _ _ _ (by decide) (by decide)]
    intro h
    have hlen := congrArg List.length h
    rw [(List.mergeSort_perm _ _).length_eq, List.length_map] at hlen
    rw [show (preprocess (pstrip ("hello"))).map
          (plistOf (⟨[], [], [("hello", [⟨0, 1⟩])], [("hello", 1)], [("hello", 1)], 1,
            [(JKey.int 0, 1)]⟩ : Index)) = [[⟨0, 1⟩]] from by decide] at hlen
    rw [show and_intersect [[(⟨0, 1⟩ : Posting)]] = [0] from by simp [and_intersect]] at hlen
    simp at hlen
  exact ⟨hth.1, hth.2.1⟩

end DocuSearch

namespace DocuSearch

/-! ## Indexer fold lemmas -/

/-- The documents that survive the empty-after-strip skip, with their
stripped text, in corpus order. -/
def validDocs (documents : List (String × String)) : List (String × String) :=
  documents.filterMap (fun doc =>
    if pstrip doc.2 = "" then none else some (doc.1, pstrip doc.2))

/-- Sequential numbering from n, the doc_id assignment order. -/
def numberFrom {α : Type} (n : Nat) : List α → List (Nat × α)
  | [] => []
  | x :: xs => (n, x) :: numberFrom (n + 1) xs

/-- The (doc_id, document) pairs a corpus is assigned by the build loop. -/
def numbered (documents : List (String × String)) : List (Nat × (String × String)) :=
  numberFrom 0 (validDocs documents)

/-- The postings list the build loop accumulates for one term: one entry per
assigned document containing the term, in ascending doc_id order, carrying
the raw term frequency. -/
def postingsFor (t : String) (documents : List (String × String)) : List Posting :=
  (numbered documents).filterMap (fun p =>
    if (preprocess p.2.2).count t = 0 then none
    else some ⟨p.1, (preprocess p.2.2).count t⟩)

theorem numberFrom_append {α : Type} (x : α) :
    ∀ (l : List α) (n : Nat),
      numberFrom n (l ++ [x]) = numberFrom n l ++ [(n + l.length, x)] := by
  intro l
  induction l with
  | nil => intro n; simp [numberFrom]
  | cons y ys ih =>
    intro n
    rw [List.cons_append]
    rw [show numberFrom n (y :: (ys ++ [x])) = (n, y) :: numberFrom (n + 1) (ys ++ [x])
      from rfl]
    rw [ih (n + 1), List.length_cons]
    rw [show (n + 1) + ys.length = n + (ys.length + 1) from by omega]
    rfl

theorem numberFrom_length {α : Type} :
    ∀ (l : List α) (n : Nat), (numberFrom n l).length = l.length := by
  intro l
  induction l with
  | nil => intro n; rfl
  | cons y ys ih => intro n; simp [numberFrom, ih]

theorem numberFrom_mem {α : Type} :
    ∀ (l : List α) (n : Nat) (d : Nat) (x : α),
      ((d, x) ∈ numberFrom n l ↔ n ≤ d ∧ l.get? (d - n) = some x) := by
  intro l
  induction l with
  | nil => intro n d x; simp [numberFrom]
  | cons y ys ih =>
    intro n d x
    simp only [numberFrom, List.mem_cons]
    constructor
    · rintro (h | h)
      · obtain ⟨hd, hx⟩ := Prod.mk.injEq .. ▸ h
        subst hd
        subst hx
        refine ⟨le_refl d, ?_⟩
        rw [Nat.sub_self]
        rfl
      · obtain ⟨hle, hget⟩ := (ih (n + 1) d x).mp h
        refine ⟨by omega, ?_⟩
        rw [show d - n = (d - (n + 1)) + 1 from by omega, List.get?_cons_succ]
        exact hget
    · rintro ⟨hle, hget⟩
      by_cases hdn : d = n
      · subst hdn
        rw [Nat.sub_self, List.get?_cons_zero] at hget
        exact Or.inl (by rw [Option.some_inj.mp hget])
      · refine Or.inr ((ih (n + 1) d x).mpr ⟨by omega, ?_⟩)
        rw [show d - n = (d - (n + 1)) + 1 from by omega, List.get?_cons_succ] at hget
        exact hget

theorem numberFrom_pairwise {α : Type} :
    ∀ (l : List α) (n : Nat), (numberFrom n l).Pairwise (fun a b => a.1 < b.1) := by
  intro l
  induction l with
  | nil => intro n; exact List.Pairwise.nil
  | cons y ys ih =>
    intro n
    refine List.pairwise_cons.mpr ⟨?_, ih (n + 1)⟩
    intro p hp
    have := (numberFrom_mem ys (n + 1) p.1 p.2).mp (by simpa using hp)
    omega

end DocuSearch

namespace DocuSearch

theorem alookup_mem_of_eq_some {α β : Type} [DecidableEq α] :
    ∀ (l : List (α × β)) (a : α) (b : β), alookup l a = some b → (a, b) ∈ l := by
  intro l
  induction l with
  | nil => intro a b h; simp [alookup] at h
  | cons kv rest ih =>
    obtain ⟨k, v⟩ := kv
    intro a b h
    rw [alookup_cons] at h
    by_cases hk : k = a
    · rw [if_pos hk] at h
      subst hk
      exact List.mem_cons.mpr (Or.inl (by rw [← Option.some_inj.mp h]))
    · rw [if_neg hk] at h
      exact List.mem_cons.mpr (Or.inr (ih a b h))

theorem alookup_eq_some_of_nodup_mem {α β : Type} [DecidableEq α] :
    ∀ (l : List (α × β)) (a : α) (b : β), (l.map Prod.fst).Nodup →
      (a, b) ∈ l → alookup l a = some b := by
  intro l
  induction l with
  | nil => intro a b _ h; simp at h
  | cons kv rest ih =>
    obtain ⟨k, v⟩ := kv
    intro a b hnd hmem
    simp only [List.map_cons] at hnd
    obtain ⟨hnotin, hnd2⟩ := List.nodup_cons.mp hnd
    rcases List.mem_cons.mp hmem with h | h
    · obtain ⟨ha, hb⟩ := Prod.mk.injEq .. ▸ h
      subst ha
      subst hb
      rw [alookup_cons, if_pos rfl]
    · rw [alookup_cons, if_neg ?_]
      · exact ih a b hnd2 h
      · intro hk
        subst hk
        exact hnotin (List.mem_map.mpr ⟨(k, b), h, rfl⟩)

theorem updA_lookup {κ β : Type} [DecidableEq κ]
    (upd : List (κ × β) → κ → List (κ × β)) (fnew : β) (fupd : β → β)
    (hnil : ∀ t, upd [] t = [(t, fnew)])
    (hcons : ∀ k v rest t,
      upd ((k, v) :: rest) t = if k = t then (k, fupd v) :: rest else (k, v) :: upd rest t) :
    ∀ (acc : List (κ × β)) (tok t : κ),
      alookup (upd acc tok) t =
        if t = tok then some ((alookup acc t).elim fnew fupd)
        else alookup acc t := by
  intro acc
  induction acc with
  | nil =>
    intro tok t
    rw [hnil tok, alookup_cons]
    by_cases h : t = tok
    · subst h
      rw [if_pos rfl, if_pos rfl]
      rfl
    · rw [if_neg (Ne.symm h), if_neg h]
  | cons kv rest ih =>
    obtain ⟨k, v⟩ := kv
    intro tok t
    rw [hcons k v rest tok]
    by_cases hk : k = tok
    · rw [if_pos hk]
      subst hk
      by_cases ht : k = t
      · subst ht
        simp [alookup_cons]
      · simp [alookup_cons, ht, Ne.symm ht]
    · rw [if_neg hk, alookup_cons, alookup_cons]
      by_cases ht : k = t
      · subst ht
        simp [hk]
      · rw [if_neg ht, if_neg ht]
        exact ih tok t

theorem updA_keys {κ β : Type} [DecidableEq κ]
    (upd : List (κ × β) → κ → List (κ × β)) (fnew : β) (fupd : β → β)
    (hnil : ∀ t, upd [] t = [(t, fnew)])
    (hcons : ∀ k v rest t,
      upd ((k, v) :: rest) t = if k = t then (k, fupd v) :: rest else (k, v) :: upd rest t) :
    ∀ (acc : List (κ × β)) (tok : κ),
      (upd acc tok).map Prod.fst =
        if tok ∈ acc.map Prod.fst then acc.map Prod.fst
        else acc.map Prod.fst ++ [tok] := by
  intro acc
  induction acc with
  | nil =>
    intro tok
    rw [hnil tok]
    simp
  | cons kv rest ih =>
    obtain ⟨k, v⟩ := kv
    intro tok
    rw [hcons k v rest tok]
    by_cases hk : k = tok
    · subst hk
      simp
    · rw [if_neg hk]
      simp only [List.map_cons]
      rw [ih tok]
      by_cases hmem : tok ∈ rest.map Prod.fst
      · rw [if_pos hmem, if_pos (List.mem_cons.mpr (Or.inr hmem))]
      · rw [if_neg hmem, if_neg ?_]
        · rfl
        · intro hcontra
          rcases List.mem_cons.mp hcontra with h | h
          · exact hk h.symm
          · exact hmem h

theorem bumpNat_lookup (acc : List (String × Nat)) (tok t : String) :
    alookup (bumpNat acc tok) t =
      if t = tok then some ((alookup acc t).elim 1 (fun v => v + 1))
      else alookup acc t :=
  updA_lookup bumpNat 1 (fun v => v + 1) (fun _ => rfl) (fun _ _ _ _ => rfl) acc tok t

theorem bumpNat_keys (acc : List (String × Nat)) (tok : String) :
    (bumpNat acc tok).map Prod.fst =
      if tok ∈ acc.map Prod.fst then acc.map Prod.fst else acc.map Prod.fst ++ [tok] :=
  updA_keys bumpNat 1 (fun v => v + 1) (fun _ => rfl) (fun _ _ _ _ => rfl) acc tok

theorem appendPosting_lookup (p : Posting) (P : List (String × List Posting)) (tok t : String) :
    alookup (appendPosting P tok p) t =
      if t = tok then some ((alookup P t).elim [p] (fun v => v ++ [p]))
      else alookup P t :=
  updA_lookup (fun P t => appendPosting P t p) [p] (fun v => v ++ [p])
    (fun _ => rfl) (fun _ _ _ _ => rfl) P tok t

theorem appendPosting_keys (p : Posting) (P : List (String × List Posting)) (tok : String) :
    (appendPosting P tok p).map Prod.fst =
      if tok ∈ P.map Prod.fst then P.map Prod.fst else P.map Prod.fst ++ [tok] :=
  updA_keys (fun P t => appendPosting P t p) [p] (fun v => v ++ [p])
    (fun _ => rfl) (fun _ _ _ _ => rfl) P tok

theorem bumpNorm_lookup (x : Rat) (nm : List (JKey × Rat)) (tok t : JKey) :
    alookup (bumpNorm nm tok x) t =
      if t = tok then some ((alookup nm t).elim x (fun v => v + x))
      else alookup nm t :=
  updA_lookup (fun nm k => bumpNorm nm k x) x (fun v => v + x)
    (fun _ => rfl) (fun _ _ _ _ => rfl) nm tok t

theorem elimNat_getD (o : Option Nat) :
    o.elim 1 (fun v => v + 1) = o.getD 0 + 1 := by
  cases o with
  | none => rfl
  | some v => rfl

theorem countTokens_fold_lookup :
    ∀ (toks : List String) (acc : List (String × Nat)) (t : String),
      alookup (toks.foldl (fun a x => bumpNat a x) acc) t =
        if toks.count t = 0 then alookup acc t
        else some ((alookup acc t).getD 0 + toks.count t) := by
  intro toks
  induction toks with
  | nil => intro acc t; simp
  | cons tok rest ih =>
    intro acc t
    simp only [List.foldl_cons]
    rw [ih (bumpNat acc tok) t, bumpNat_lookup]
    by_cases ht : t = tok
    · subst ht
      rw [List.count_cons_self, if_pos rfl, elimNat_getD]
      by_cases hrest : rest.count t = 0
      · rw [if_pos hrest, if_neg (by omega)]
        rw [hrest]
      · rw [if_neg hrest, if_neg (by omega), Option.getD_some]
        congr 1
        omega
    · rw [List.count_cons_of_ne ht, if_neg ht]
  
theorem countTokens_lookup (toks : List String) (t : String) :
    alookup (countTokens toks) t =
      if toks.count t = 0 then none else some (toks.count t) := by
  rw [countTokens, countTokens_fold_lookup toks [] t]
  by_cases h : toks.count t = 0
  · rw [if_pos h, if_pos h]
    rfl
  · rw [if_neg h, if_neg h]
    simp [alookup]

theorem countTokens_keys_nodup (toks : List String) :
    ((countTokens toks).map Prod.fst).Nodup := by
  rw [countTokens]
  have main : ∀ (ts : List String) (acc : List (String × Nat)),
      (acc.map Prod.fst).Nodup →
        ((ts.foldl (fun a x => bumpNat a x) acc).map Prod.fst).Nodup := by
    intro ts
    induction ts with
    | nil => intro acc h; simpa using h
    | cons tok rest ih =>
      intro acc h
      simp only [List.foldl_cons]
      apply ih
      rw [bumpNat_keys]
      by_cases hmem : tok ∈ acc.map Prod.fst
      · rw [if_pos hmem]
        exact h
      · rw [if_neg hmem]
        exact List.Nodup.append h (List.nodup_singleton tok)
          (fun x hx hxs => hmem (by rwa [List.mem_singleton.mp hxs] at hx))
  exact main toks [] (by simp)

theorem foldl_pair_split {α β γ : Type} (f : α → γ → α) (g : β → γ → β) :
    ∀ (l : List γ) (a : α) (b : β),
      l.foldl (fun pf c => (f pf.1 c, g pf.2 c)) (a, b) = (l.foldl f a, l.foldl g b) := by
  intro l
  induction l with
  | nil => intro a b; rfl
  | cons c cs ih => intro a b; simp only [List.foldl_cons, ih]

end DocuSearch

namespace DocuSearch

theorem appendfold_lookup (d : Nat) :
    ∀ (cs : List (String × Nat)) (P : List (String × List Posting)) (t : String),
      (cs.map Prod.fst).Nodup →
      alookup (cs.foldl (fun P c => appendPosting P c.1 ⟨d, c.2⟩) P) t =
        match alookup cs t with
        | none => alookup P t
        | some c => some ((alookup P t).getD [] ++ [⟨d, c⟩]) := by
  intro cs
  induction cs with
  | nil => intro P t _; rfl
  | cons kc rest ih =>
    obtain ⟨k, c⟩ := kc
    intro P t hnd
    simp only [List.map_cons] at hnd
    obtain ⟨hnotin, hnd2⟩ := List.nodup_cons.mp hnd
    simp only [List.foldl_cons]
    rw [ih (appendPosting P k ⟨d, c⟩) t hnd2]
    by_cases ht : t = k
    · subst ht
      rw [show alookup rest t = none from
          (alookup_eq_none rest t).mpr (by simpa using hnotin)]
      rw [alookup_cons, if_pos rfl, appendPosting_lookup, if_pos rfl]
      rcases halo : alookup P t with _ | v
      · rfl
      · rfl
    · rw [alookup_cons, if_neg (Ne.symm ht), appendPosting_lookup, if_neg ht]

theorem bumpfold_lookup :
    ∀ (cs : List (String × Nat)) (F : List (String × Nat)) (t : String),
      (cs.map Prod.fst).Nodup →
      alookup (cs.foldl (fun F c => bumpNat F c.1) F) t =
        match alookup cs t with
        | none => alookup F t
        | some _ => some ((alookup F t).getD 0 + 1) := by
  intro cs
  induction cs with
  | nil => intro F t _; rfl
  | cons kc rest ih =>
    obtain ⟨k, c⟩ := kc
    intro F t hnd
    simp only [List.map_cons] at hnd
    obtain ⟨hnotin, hnd2⟩ := List.nodup_cons.mp hnd
    simp only [List.foldl_cons]
    rw [ih (bumpNat F k) t hnd2]
    by_cases ht : t = k
    · subst ht
      rw [show alookup rest t = none from
          (alookup_eq_none rest t).mpr (by simpa using hnotin)]
      rw [alookup_cons, if_pos rfl, bumpNat_lookup, if_pos rfl]
      rcases halo : alookup F t with _ | v
      · rfl
      · rfl
    · rw [alookup_cons, if_neg (Ne.symm ht), bumpNat_lookup, if_neg ht]

theorem appendfold_keys_nodup (d : Nat) :
    ∀ (cs : List (String × Nat)) (P : List (String × List Posting)),
      (P.map Prod.fst).Nodup →
      (((cs.foldl (fun P c => appendPosting P c.1 ⟨d, c.2⟩) P)).map Prod.fst).Nodup := by
  intro cs
  induction cs with
  | nil => intro P h; simpa using h
  | cons kc rest ih =>
    obtain ⟨k, c⟩ := kc
    intro P h
    simp only [List.foldl_cons]
    apply ih
    rw [appendPosting_keys]
    by_cases hmem : k ∈ P.map Prod.fst
    · rw [if_pos hmem]
      exact h
    · rw [if_neg hmem]
      exact List.Nodup.append h (List.nodup_singleton k)
        (fun x hx hxs => hmem (by rwa [List.mem_singleton.mp hxs] at hx))

theorem processDoc_fold_split (d : Nat) :
    ∀ (cs : List (String × Nat)) (P : List (String × List Posting)) (F : List (String × Nat)),
      cs.foldl
          (fun (pf : List (String × List Posting) × List (String × Nat)) c =>
            (appendPosting pf.1 c.1 ⟨d, c.2⟩, bumpNat pf.2 c.1)) (P, F)
        = (cs.foldl (fun P c => appendPosting P c.1 ⟨d, c.2⟩) P,
           cs.foldl (fun F c => bumpNat F c.1) F) := by
  intro cs
  induction cs with
  | nil => intro P F; rfl
  | cons kc rest ih =>
    intro P F
    simp only [List.foldl_cons]
    exact ih _ _

theorem processDoc_empty (st : BuildSt) (src raw : String) (h : pstrip raw = "") :
    processDoc st src raw = st := by
  simp [processDoc, h]

theorem processDoc_fields (st : BuildSt) (src raw : String) (h : ¬(pstrip raw = "")) :
    processDoc st src raw =
      ⟨st.doc_id_map ++ [(JKey.int st.next_id, src)],
       st.forward_index ++ [(JKey.int st.next_id, pstrip raw)],
       (countTokens (preprocess (pstrip raw))).foldl
         (fun P c => appendPosting P c.1 ⟨st.next_id, c.2⟩) st.postings,
       (countTokens (preprocess (pstrip raw))).foldl
         (fun F c => bumpNat F c.1) st.df,
       st.next_id + 1⟩ := by
  simp only [processDoc, if_neg h]
  rw [processDoc_fold_split]

end DocuSearch

namespace DocuSearch

theorem validDocs_append_skip (ds : List (String × String)) (doc : String × String)
    (h : pstrip doc.2 = "") : validDocs (ds ++ [doc]) = validDocs ds := by
  simp [validDocs, List.filterMap_append, h]

theorem validDocs_append_keep (ds : List (String × String)) (doc : String × String)
    (h : ¬(pstrip doc.2 = "")) :
    validDocs (ds ++ [doc]) = validDocs ds ++ [(doc.1, pstrip doc.2)] := by
  simp [validDocs, List.filterMap_append, h]

theorem numbered_append_keep (ds : List (String × String)) (doc : String × String)
    (h : ¬(pstrip doc.2 = "")) :
    numbered (ds ++ [doc])
      = numbered ds ++ [((validDocs ds).length, (doc.1, pstrip doc.2))] := by
  rw [numbered, validDocs_append_keep ds doc h, numberFrom_append, numbered]
  simp

theorem postingsFor_append_skip (t : String) (ds : List (String × String))
    (doc : String × String) (h : pstrip doc.2 = "") :
    postingsFor t (ds ++ [doc]) = postingsFor t ds := by
  rw [postingsFor, numbered, validDocs_append_skip ds doc h]
  rfl

theorem postingsFor_append_keep (t : String) (ds : List (String × String))
    (doc : String × String) (h : ¬(pstrip doc.2 = "")) :
    postingsFor t (ds ++ [doc])
      = postingsFor t ds ++
        (if (preprocess (pstrip doc.2)).count t = 0 then []
         else [⟨(validDocs ds).length, (preprocess (pstrip doc.2)).count t⟩]) := by
  rw [postingsFor, numbered_append_keep ds doc h, List.filterMap_append, postingsFor]
  congr 1
  by_cases hc : (preprocess (pstrip doc.2)).count t = 0
  · simp [hc]
  · simp [hc]

theorem buildSt_spec (documents : List (String × String)) :
    ((documents.foldl (fun st doc => processDoc st doc.1 doc.2)
        (⟨[], [], [], [], 0⟩ : BuildSt)).next_id = (validDocs documents).length)
    ∧ ((documents.foldl (fun st doc => processDoc st doc.1 doc.2)
        (⟨[], [], [], [], 0⟩ : BuildSt)).doc_id_map
      = (numbered documents).map (fun p => (JKey.int p.1, p.2.1)))
    ∧ ((documents.foldl (fun st doc => processDoc st doc.1 doc.2)
        (⟨[], [], [], [], 0⟩ : BuildSt)).forward_index
      = (numbered documents).map (fun p => (JKey.int p.1, p.2.2)))
    ∧ (((documents.foldl (fun st doc => processDoc st doc.1 doc.2)
        (⟨[], [], [], [], 0⟩ : BuildSt)).postings.map Prod.fst).Nodup)
    ∧ (∀ t, alookup (documents.foldl (fun st doc => processDoc st doc.1 doc.2)
        (⟨[], [], [], [], 0⟩ : BuildSt)).postings t
      = if postingsFor t documents = [] then none else some (postingsFor t documents))
    ∧ (∀ t, alookup (documents.foldl (fun st doc => processDoc st doc.1 doc.2)
        (⟨[], [], [], [], 0⟩ : BuildSt)).df t
      = if postingsFor t documents = [] then none
        else some (postingsFor t documents).length) := by
  induction documents using List.reverseRecOn with
  | nil =>
    refine ⟨rfl, rfl, rfl, List.nodup_nil, fun t => ?_, fun t => ?_⟩
    · rw [show postingsFor t [] = [] from rfl, if_pos rfl]
      rfl
    · rw [show postingsFor t [] = [] from rfl, if_pos rfl]
      rfl
  | append_singleton ds doc ih =>
    obtain ⟨ihN, ihMap, ihFwd, ihNodup, ihPost, ihDf⟩ := ih
    rw [List.foldl_append]
    simp only [List.foldl_cons, List.foldl_nil]
    by_cases h : pstrip doc.2 = ""
    · rw [processDoc_empty _ doc.1 doc.2 h]
      rw [validDocs_append_skip ds doc h]
      rw [show numbered (ds ++ [doc]) = numbered ds from by
        rw [numbered, validDocs_append_skip ds doc h, numbered]]
      refine ⟨ihN, ihMap, ihFwd, ihNodup, fun t => ?_, fun t => ?_⟩
      · rw [postingsFor_append_skip t ds doc h]
        exact ihPost t
      · rw [postingsFor_append_skip t ds doc h]
        exact ihDf t
    · rw [processDoc_fields _ doc.1 doc.2 h]
      refine ⟨?_, ?_, ?_, ?_, fun t => ?_, fun t => ?_⟩
      · show (ds.foldl (fun st doc => processDoc st doc.1 doc.2)
            (⟨[], [], [], [], 0⟩ : BuildSt)).next_id + 1 = (validDocs (ds ++ [doc])).length
        rw [ihN, validDocs_append_keep ds doc h, List.length_append]
        rfl
      · show (ds.foldl (fun st doc => processDoc st doc.1 doc.2)
            (⟨[], [], [], [], 0⟩ : BuildSt)).doc_id_map
            ++ [(JKey.int (ds.foldl (fun st doc => processDoc st doc.1 doc.2)
                (⟨[], [], [], [], 0⟩ : BuildSt)).next_id, doc.1)]
          = (numbered (ds ++ [doc])).map (fun p => (JKey.int p.1, p.2.1))
        rw [ihMap, ihN, numbered_append_keep ds doc h, List.map_append]
        rfl
      · show (ds.foldl (fun st doc => processDoc st doc.1 doc.2)
            (⟨[], [], [], [], 0⟩ : BuildSt)).forward_index
            ++ [(JKey.int (ds.foldl (fun st doc => processDoc st doc.1 doc.2)
                (⟨[], [], [], [], 0⟩ : BuildSt)).next_id, pstrip doc.2)]
          = (numbered (ds ++ [doc])).map (fun p => (JKey.int p.1, p.2.2))
        rw [ihFwd, ihN, numbered_append_keep ds doc h, List.map_append]
        rfl
      · exact appendfold_keys_nodup _ _ _ ihNodup
      · show alookup ((countTokens (preprocess (pstrip doc.2))).foldl
            (fun P c => appendPosting P c.1
              ⟨(ds.foldl (fun st doc => processDoc st doc.1 doc.2)
                  (⟨[], [], [], [], 0⟩ : BuildSt)).next_id, c.2⟩)
            (ds.foldl (fun st doc => processDoc st doc.1 doc.2)
              (⟨[], [], [], [], 0⟩ : BuildSt)).postings) t
          = if postingsFor t (ds ++ [doc]) = [] then none
            else some (postingsFor t (ds ++ [doc]))
        rw [appendfold_lookup _ _ _ t (countTokens_keys_nodup _), countTokens_lookup,
          postingsFor_append_keep t ds doc h, ihN]
        by_cases hc : (preprocess (pstrip doc.2)).count t = 0
        · rw [if_pos hc, if_pos hc, List.append_nil]
          exact ihPost t
        · rw [if_neg hc, if_neg hc,
            if_neg (by simp : ¬(postingsFor t ds
              ++ [⟨(validDocs ds).length, (preprocess (pstrip doc.2)).count t⟩] = []))]
          show some ((alookup (ds.foldl (fun st doc => processDoc st doc.1 doc.2)
              (⟨[], [], [], [], 0⟩ : BuildSt)).postings t).getD []
            ++ [⟨(validDocs ds).length, (preprocess (pstrip doc.2)).count t⟩])
            = _
          rw [ihPost t]
          by_cases hpf : postingsFor t ds = []
          · rw [if_pos hpf, hpf]
            rfl
          · rw [if_neg hpf]
            rfl
      · show alookup ((countTokens (preprocess (pstrip doc.2))).foldl
            (fun F c => bumpNat F c.1)
            (ds.foldl (fun st doc => processDoc st doc.1 doc.2)
              (⟨[], [], [], [], 0⟩ : BuildSt)).df) t
          = if postingsFor t (ds ++ [doc]) = [] then none
            else some (postingsFor t (ds ++ [doc])).length
        rw [bumpfold_lookup _ _ t (countTokens_keys_nodup _), countTokens_lookup,
          postingsFor_append_keep t ds doc h]
        by_cases hc : (preprocess (pstrip doc.2)).count t = 0
        · rw [if_pos hc, if_pos hc, List.append_nil]
          exact ihDf t
        · rw [if_neg hc, if_neg hc,
            if_neg (by simp : ¬(postingsFor t ds
              ++ [⟨(validDocs ds).length, (preprocess (pstrip doc.2)).count t⟩] = []))]
          show some ((alookup (ds.foldl (fun st doc => processDoc st doc.1 doc.2)
              (⟨[], [], [], [], 0⟩ : BuildSt)).df t).getD 0 + 1)
            = _
          rw [ihDf t, List.length_append]
          by_cases hpf : postingsFor t ds = []
          · rw [if_pos hpf, hpf]
            rfl
          · rw [if_neg hpf]
            rfl

end DocuSearch

namespace DocuSearch

/-- Number of postings entries across all terms that belong to doc d. -/
def docEntryCount (d : Nat) (items : List (String × List Posting)) : Nat :=
  (items.map (fun kv => (kv.2.filter (fun e => decide (e.doc_id = d))).length)).sum

/-- The squared-weight total the doc_norm pass accumulates for doc d. -/
def docNormSum (log : Rat → Rat) (idf : List (String × Rat)) (d : Nat)
    (items : List (String × List Posting)) : Rat :=
  (items.map (fun kv =>
    ((kv.2.filter (fun e => decide (e.doc_id = d))).map
      (fun e => ((1 + log ((e.tf : Nat) : Rat)) * (alookup idf kv.1).getD 0) ^ 2)).sum)).sum

theorem docEntryCount_cons (d : Nat) (kv : String × List Posting)
    (rest : List (String × List Posting)) :
    docEntryCount d (kv :: rest)
      = (kv.2.filter (fun e => decide (e.doc_id = d))).length + docEntryCount d rest := by
  rw [docEntryCount, docEntryCount, List.map_cons, List.sum_cons]

theorem docNormSum_cons (log : Rat → Rat) (idf : List (String × Rat)) (d : Nat)
    (kv : String × List Posting) (rest : List (String × List Posting)) :
    docNormSum log idf d (kv :: rest)
      = ((kv.2.filter (fun e => decide (e.doc_id = d))).map
          (fun e => ((1 + log ((e.tf : Nat) : Rat)) * (alookup idf kv.1).getD 0) ^ 2)).sum
        + docNormSum log idf d rest := by
  rw [docNormSum, docNormSum, List.map_cons, List.sum_cons]

theorem elimRat_getD (x : Rat) (o : Option Rat) :
    o.elim x (fun v => v + x) = o.getD 0 + x := by
  cases o with
  | none => simp
  | some v => rfl

theorem jint_ne {a b : Nat} (h : ¬(b = a)) : ¬(JKey.int a = JKey.int b) := by
  intro hh
  injection hh with h2
  exact h h2.symm

theorem normfold_plist (w : Posting → Rat) :
    ∀ (pl : List Posting) (nm : List (JKey × Rat)) (d : Nat),
      alookup (pl.foldl (fun nm e => bumpNorm nm (JKey.int e.doc_id) (w e)) nm) (JKey.int d)
        = if (pl.filter (fun e => decide (e.doc_id = d))).length = 0 then
            alookup nm (JKey.int d)
          else some ((alookup nm (JKey.int d)).getD 0
            + ((pl.filter (fun e => decide (e.doc_id = d))).map w).sum) := by
  intro pl
  induction pl with
  | nil => intro nm d; rfl
  | cons e rest ih =>
    intro nm d
    simp only [List.foldl_cons]
    rw [ih (bumpNorm nm (JKey.int e.doc_id) (w e)) d]
    by_cases hd : e.doc_id = d
    · have hfil : (e :: rest).filter (fun e => decide (e.doc_id = d))
          = e :: rest.filter (fun e => decide (e.doc_id = d)) := by
        rw [List.filter_cons, if_pos (by simp [hd])]
      rw [hfil, bumpNorm_lookup,
        if_pos (show JKey.int d = JKey.int e.doc_id from by rw [hd]), elimRat_getD]
      by_cases hrest : (rest.filter (fun e => decide (e.doc_id = d))).length = 0
      · rw [if_pos hrest, if_neg (by simp)]
        rw [List.length_eq_zero.mp hrest, List.map_cons, List.map_nil, List.sum_cons,
          List.sum_nil, add_zero]
      · rw [if_neg hrest, if_neg (by simp), Option.getD_some, List.map_cons, List.sum_cons,
          add_assoc]
    · have hfil : (e :: rest).filter (fun e => decide (e.doc_id = d))
          = rest.filter (fun e => decide (e.doc_id = d)) := by
        rw [List.filter_cons, if_neg (by simp [hd])]
      rw [hfil, bumpNorm_lookup, if_neg (jint_ne hd)]

theorem normPass_eq (log : Rat → Rat) (idf : List (String × Rat))
    (items : List (String × List Posting)) :
    normPass log idf items
      = items.foldl (fun nm kv =>
          kv.2.foldl (fun nm e => bumpNorm nm (JKey.int e.doc_id)
            (((1 + log ((e.tf : Nat) : Rat)) * (alookup idf kv.1).getD 0) ^ 2)) nm) [] := rfl

theorem docNormSum_zero_of_count_zero (log : Rat → Rat) (idf : List (String × Rat)) (d : Nat) :
    ∀ (items : List (String × List Posting)),
      docEntryCount d items = 0 → docNormSum log idf d items = 0 := by
  intro items
  induction items with
  | nil => intro _; rfl
  | cons kv rest ih =>
    intro h
    rw [docEntryCount_cons] at h
    rw [docNormSum_cons, List.length_eq_zero.mp (by omega : (kv.2.filter
      (fun e => decide (e.doc_id = d))).length = 0)]
    rw [List.map_nil, List.sum_nil, zero_add]
    exact ih (by omega)

theorem normPass_fold_lookup (log : Rat → Rat) (idf : List (String × Rat)) :
    ∀ (items : List (String × List Posting)) (nm : List (JKey × Rat)) (d : Nat),
      alookup (items.foldl (fun nm kv =>
          kv.2.foldl (fun nm e => bumpNorm nm (JKey.int e.doc_id)
            (((1 + log ((e.tf : Nat) : Rat)) * (alookup idf kv.1).getD 0) ^ 2)) nm) nm)
        (JKey.int d)
        = if docEntryCount d items = 0 then alookup nm (JKey.int d)
          else some ((alookup nm (JKey.int d)).getD 0 + docNormSum log idf d items) := by
  intro items
  induction items with
  | nil =>
    intro nm d
    rw [if_pos (show docEntryCount d [] = 0 from rfl)]
    rfl
  | cons kv rest ih =>
    intro nm d
    simp only [List.foldl_cons]
    rw [ih _ d, docEntryCount_cons, docNormSum_cons]
    rw [normfold_plist _ kv.2 nm d]
    by_cases hic : (kv.2.filter (fun e => decide (e.doc_id = d))).length = 0
    · rw [if_pos hic, List.length_eq_zero.mp hic]
      simp only [List.length_nil, List.map_nil, List.sum_nil, Nat.zero_add, zero_add]
    · rw [if_neg hic, if_neg (by omega : ¬((kv.2.filter
        (fun e => decide (e.doc_id = d))).length + docEntryCount d rest = 0))]
      by_cases hrc : docEntryCount d rest = 0
      · rw [if_pos hrc, docNormSum_zero_of_count_zero log idf d rest hrc, add_zero]
      · rw [if_neg hrc, Option.getD_some, add_assoc]

end DocuSearch

namespace DocuSearch

theorem pairwise_filterMap_of {α β : Type} (f : α → Option β)
    (R : α → α → Prop) (S : β → β → Prop)
    (h : ∀ a b x y, R a b → f a = some x → f b = some y → S x y) :
    ∀ (l : List α), l.Pairwise R → (l.filterMap f).Pairwise S := by
  intro l
  induction l with
  | nil => intro _; simp
  | cons a rest ih =>
    intro hpw
    obtain ⟨ha, hrest⟩ := List.pairwise_cons.mp hpw
    rw [List.filterMap_cons]
    rcases hfa : f a with _ | x
    · exact ih hrest
    · refine List.pairwise_cons.mpr ⟨?_, ih hrest⟩
      intro y hy
      obtain ⟨b, hb, hfb⟩ := List.mem_filterMap.mp hy
      exact h a b x y (ha b hb) hfa hfb

theorem postingsFor_sorted (t : String) (documents : List (String × String)) :
    (postingsFor t documents).Pairwise (fun a b => a.doc_id < b.doc_id) := by
  apply pairwise_filterMap_of _ (fun a b => a.1 < b.1)
  · intro a b x y hab hfa hfb
    by_cases ha : (preprocess a.2.2).count t = 0
    · rw [if_pos ha] at hfa
      exact absurd hfa (by simp)
    · by_cases hb : (preprocess b.2.2).count t = 0
      · rw [if_pos hb] at hfb
        exact absurd hfb (by simp)
      · rw [if_neg ha] at hfa
        rw [if_neg hb] at hfb
        rw [← Option.some_inj.mp hfa, ← Option.some_inj.mp hfb]
        exact hab
  · exact numberFrom_pairwise _ 0

theorem postingsFor_tf_pos (t : String) (documents : List (String × String)) :
    ∀ e ∈ postingsFor t documents, 0 < e.tf ∧
      ∃ doc, (validDocs documents).get? e.doc_id = some doc
        ∧ (preprocess doc.2).count t = e.tf := by
  intro e he
  obtain ⟨p, hp, hfp⟩ := List.mem_filterMap.mp he
  by_cases hc : (preprocess p.2.2).count t = 0
  · rw [if_pos hc] at hfp
    exact absurd hfp (by simp)
  · rw [if_neg hc] at hfp
    have he2 := Option.some_inj.mp hfp
    obtain ⟨hle, hget⟩ := (numberFrom_mem _ 0 p.1 p.2).mp hp
    rw [Nat.sub_zero] at hget
    refine ⟨by rw [← he2]; simpa using Nat.pos_of_ne_zero hc, p.2, ?_, ?_⟩
    · rw [← he2]
      exact hget
    · rw [← he2]
  
theorem postingsFor_mem_of_count (t : String) (documents : List (String × String))
    (d : Nat) (doc : String × String)
    (hget : (validDocs documents).get? d = some doc)
    (hc : ¬((preprocess doc.2).count t = 0)) :
    (⟨d, (preprocess doc.2).count t⟩ : Posting) ∈ postingsFor t documents := by
  apply List.mem_filterMap.mpr
  refine ⟨(d, doc), ?_, ?_⟩
  · exact (numberFrom_mem _ 0 d doc).mpr ⟨Nat.zero_le d, by rwa [Nat.sub_zero]⟩
  · rw [if_neg hc]

theorem build_index_postings (log sqrt : Rat → Rat) (documents : List (String × String)) :
    (build_index log sqrt documents).postings
      = (documents.foldl (fun st doc => processDoc st doc.1 doc.2)
          (⟨[], [], [], [], 0⟩ : BuildSt)).postings.map
        (fun kv => (kv.1, kv.2.mergeSort (fun a b => decide (a.doc_id ≤ b.doc_id)))) := rfl

theorem build_index_df (log sqrt : Rat → Rat) (documents : List (String × String)) :
    (build_index log sqrt documents).df
      = (documents.foldl (fun st doc => processDoc st doc.1 doc.2)
          (⟨[], [], [], [], 0⟩ : BuildSt)).df := rfl

theorem build_index_forward (log sqrt : Rat → Rat) (documents : List (String × String)) :
    (build_index log sqrt documents).forward_index
      = (documents.foldl (fun st doc => processDoc st doc.1 doc.2)
          (⟨[], [], [], [], 0⟩ : BuildSt)).forward_index := rfl

theorem build_index_N (log sqrt : Rat → Rat) (documents : List (String × String)) :
    (build_index log sqrt documents).N = (validDocs documents).length := by
  rw [show (build_index log sqrt documents).N
      = (documents.foldl (fun st doc => processDoc st doc.1 doc.2)
          (⟨[], [], [], [], 0⟩ : BuildSt)).doc_id_map.length from rfl]
  rw [(buildSt_spec documents).2.1, List.length_map, numbered, numberFrom_length]

theorem build_index_idf (log sqrt : Rat → Rat) (documents : List (String × String)) :
    (build_index log sqrt documents).idf
      = (documents.foldl (fun st doc => processDoc st doc.1 doc.2)
          (⟨[], [], [], [], 0⟩ : BuildSt)).df.map
        (fun kv => (kv.1,
          log ((((build_index log sqrt documents).N : Rat) + 1) / (((kv.2 : Nat) : Rat) + 1))
            + 1)) := rfl

theorem build_index_doc_norm (log sqrt : Rat → Rat) (documents : List (String × String)) :
    (build_index log sqrt documents).doc_norm
      = (normPass log (build_index log sqrt documents).idf
          (build_index log sqrt documents).postings).map
        (fun kv => (kv.1, sqrt kv.2)) := rfl

theorem mergeSort_postingsFor (t : String) (documents : List (String × String)) :
    (postingsFor t documents).mergeSort (fun a b => decide (a.doc_id ≤ b.doc_id))
      = postingsFor t documents := by
  apply List.mergeSort_of_sorted
  exact (postingsFor_sorted t documents).imp
    (fun h => by simpa using Nat.le_of_lt h)

theorem alookup_map_sort (l : List (String × List Posting)) (t : String) :
    alookup (l.map (fun kv =>
        (kv.1, kv.2.mergeSort (fun a b => decide (a.doc_id ≤ b.doc_id))))) t
      = (alookup l t).map
          (fun pl => pl.mergeSort (fun a b => decide (a.doc_id ≤ b.doc_id))) :=
  alookup_map_value (fun _ pl => pl.mergeSort (fun a b => decide (a.doc_id ≤ b.doc_id))) l t

theorem build_postings_lookup (log sqrt : Rat → Rat) (documents : List (String × String))
    (t : String) :
    alookup (build_index log sqrt documents).postings t
      = if postingsFor t documents = [] then none else some (postingsFor t documents) := by
  rw [build_index_postings, alookup_map_sort, (buildSt_spec documents).2.2.2.2.1 t]
  by_cases h : postingsFor t documents = []
  · rw [if_pos h]
    rfl
  · rw [if_neg h, Option.map_some', mergeSort_postingsFor]

theorem build_df_lookup (log sqrt : Rat → Rat) (documents : List (String × String))
    (t : String) :
    alookup (build_index log sqrt documents).df t
      = if postingsFor t documents = [] then none
        else some (postingsFor t documents).length := by
  rw [build_index_df, (buildSt_spec documents).2.2.2.2.2 t]

theorem alookup_map_idfval (f : Nat → Rat) (l : List (String × Nat)) (t : String) :
    alookup (l.map (fun kv => (kv.1, f kv.2))) t = (alookup l t).map f :=
  alookup_map_value (fun _ dfi => f dfi) l t

theorem build_idf_lookup (log sqrt : Rat → Rat) (documents : List (String × String))
    (t : String) :
    alookup (build_index log sqrt documents).idf t
      = if postingsFor t documents = [] then none
        else some (log ((((build_index log sqrt documents).N : Rat) + 1)
            / (((postingsFor t documents).length : Rat) + 1)) + 1) := by
  rw [build_index_idf,
    alookup_map_idfval (fun dfi =>
      log ((((build_index log sqrt documents).N : Rat) + 1) / (((dfi : Nat) : Rat) + 1)) + 1),
    (buildSt_spec documents).2.2.2.2.2 t]
  by_cases h : postingsFor t documents = []
  · rw [if_pos h, if_pos h]
    rfl
  · rw [if_neg h, Option.map_some', if_neg h]

theorem alookup_numberFrom_map {α γ : Type} (f : α → γ) :
    ∀ (l : List α) (n d : Nat),
      alookup ((numberFrom n l).map (fun p => (JKey.int p.1, f p.2))) (JKey.int d)
        = if n ≤ d then (l.get? (d - n)).map f else none := by
  intro l
  induction l with
  | nil =>
    intro n d
    by_cases h : n ≤ d
    · simp [numberFrom, alookup]
    · simp [numberFrom, alookup, h]
  | cons x xs ih =>
    intro n d
    rw [show numberFrom n (x :: xs) = (n, x) :: numberFrom (n + 1) xs from rfl,
      List.map_cons, alookup_cons]
    by_cases hnd : n = d
    · subst hnd
      rw [if_pos rfl, if_pos (le_refl n), Nat.sub_self, List.get?_cons_zero]
      rfl
    · rw [if_neg (fun hh => hnd (by injection hh)), ih (n + 1) d]
      by_cases hle : n ≤ d
      · rw [if_pos (by omega), if_pos hle,
          show d - n = (d - (n + 1)) + 1 from by omega, List.get?_cons_succ]
      · rw [if_neg (by omega), if_neg hle]

theorem build_forward_lookup (log sqrt : Rat → Rat) (documents : List (String × String))
    (d : Nat) :
    alookup (build_index log sqrt documents).forward_index (JKey.int d)
      = ((validDocs documents).get? d).map Prod.snd := by
  rw [build_index_forward, (buildSt_spec documents).2.2.1]
  rw [show ((numbered documents).map (fun p => (JKey.int p.1, p.2.2)))
      = ((numberFrom 0 (validDocs documents)).map (fun p => (JKey.int p.1, Prod.snd p.2)))
    from rfl]
  rw [alookup_numberFrom_map Prod.snd (validDocs documents) 0 d, if_pos (Nat.zero_le d),
    Nat.sub_zero]

theorem build_doc_norm_lookup (log sqrt : Rat → Rat) (documents : List (String × String))
    (d : Nat) :
    alookup (build_index log sqrt documents).doc_norm (JKey.int d)
      = if docEntryCount d (build_index log sqrt documents).postings = 0 then none
        else some (sqrt (docNormSum log (build_index log sqrt documents).idf d
            (build_index log sqrt documents).postings)) := by
  rw [build_index_doc_norm,
    alookup_map_value (fun _ q => sqrt q) _ (JKey.int d),
    normPass_eq, normPass_fold_lookup log (build_index log sqrt documents).idf
      (build_index log sqrt documents).postings [] d]
  by_cases h : docEntryCount d (build_index log sqrt documents).postings = 0
  · rw [if_pos h, if_pos h]
    rfl
  · rw [if_neg h, Option.map_some']
    rw [show alookup ([] : List (JKey × Rat)) (JKey.int d) = none from rfl]
    rw [show (none : Option Rat).getD 0 = 0 from rfl, zero_add, if_neg h]

end DocuSearch

namespace DocuSearch

/-- C8: in every built index, each term's postings list is sorted strictly
ascending by doc_id (hence contains at most one entry per document), and the
stored document frequency of the term equals the length of that list. -/
theorem build_postings_sorted_and_df (log sqrt : Rat → Rat)
    (documents : List (String × String)) (t : String) (pl : List Posting)
    (h : alookup (build_index log sqrt documents).postings t = some pl) :
    pl.Pairwise (fun a b => a.doc_id < b.doc_id)
    ∧ alookup (build_index log sqrt documents).df t = some pl.length := by
  rw [build_postings_lookup] at h
  by_cases hpf : postingsFor t documents = []
  · rw [if_pos hpf] at h
    exact absurd h (by simp)
  · rw [if_neg hpf] at h
    have hpl := Option.some_inj.mp h
    refine ⟨hpl ▸ postingsFor_sorted t documents, ?_⟩
    rw [build_df_lookup, if_neg hpf, hpl]

/-- Witness for C8 on a one-document corpus: the postings list of the sole
term is strictly sorted and df equals its length. -/
theorem build_postings_sorted_and_df_witness :
    ([(⟨0, 2⟩ : Posting)].Pairwise (fun a b => a.doc_id < b.doc_id))
    ∧ alookup (build_index (fun _ => 1) (fun q => q) [("a", "hello hello")]).df ("hello")
        = some [(⟨0, 2⟩ : Posting)].length := by
  have h := build_postings_sorted_and_df (fun _ => 1) (fun q => q) [("a", "hello hello")]
    ("hello") [⟨0, 2⟩] ?hl
  case hl =>
    rw [build_postings_lookup,
      show postingsFor ("hello") [("a", "hello hello")] = [⟨0, 2⟩] from by decide]
    rw [if_neg (by simp)]
  exact h

end DocuSearch

namespace DocuSearch

theorem nat_le_sum_of_mem : ∀ (l : List Nat) (x : Nat), x ∈ l → x ≤ l.sum := by
  intro l
  induction l with
  | nil => intro x h; simp at h
  | cons a rest ih =>
    intro x h
    rw [List.sum_cons]
    rcases List.mem_cons.mp h with h | h
    · omega
    · have := ih x h
      omega

theorem rat_sum_nonneg : ∀ (l : List Rat), (∀ x ∈ l, 0 ≤ x) → 0 ≤ l.sum := by
  intro l
  induction l with
  | nil => intro _; simp
  | cons a rest ih =>
    intro h
    rw [List.sum_cons]
    exact add_nonneg (h a (by simp)) (ih (fun x hx => h x (by simp [hx])))

theorem rat_sum_pos : ∀ (l : List Rat), (∀ x ∈ l, 0 ≤ x) →
    ∀ x ∈ l, 0 < x → 0 < l.sum := by
  intro l
  induction l with
  | nil => intro _ x h; simp at h
  | cons a rest ih =>
    intro hnn x hx hpos
    rw [List.sum_cons]
    rcases List.mem_cons.mp hx with h | h
    · exact add_pos_of_pos_of_nonneg (h ▸ hpos)
        (rat_sum_nonneg rest (fun y hy => hnn y (by simp [hy])))
    · exact add_pos_of_nonneg_of_pos (hnn a (by simp))
        (ih (fun y hy => hnn y (by simp [hy])) x h hpos)

theorem docNormSum_nonneg (log : Rat → Rat) (idf : List (String × Rat)) (d : Nat)
    (items : List (String × List Posting)) : 0 ≤ docNormSum log idf d items := by
  apply rat_sum_nonneg
  intro x hx
  obtain ⟨kv, _, hkv⟩ := List.mem_map.mp hx
  rw [← hkv]
  apply rat_sum_nonneg
  intro y hy
  obtain ⟨e, _, he⟩ := List.mem_map.mp hy
  rw [← he]
  exact sq_nonneg _

theorem build_item_is_postingsFor (log sqrt : Rat → Rat)
    (documents : List (String × String)) (kv : String × List Posting)
    (hkv : kv ∈ (build_index log sqrt documents).postings) :
    kv.2 = (postingsFor kv.1 documents).mergeSort (fun a b => decide (a.doc_id ≤ b.doc_id))
    ∧ ¬(postingsFor kv.1 documents = []) := by
  rw [build_index_postings] at hkv
  obtain ⟨kv0, hkv0, hmap⟩ := List.mem_map.mp hkv
  have hlook := alookup_eq_some_of_nodup_mem _ kv0.1 kv0.2
    (buildSt_spec documents).2.2.2.1 (by rw [show (kv0.1, kv0.2) = kv0 from rfl]; exact hkv0)
  rw [(buildSt_spec documents).2.2.2.2.1 kv0.1] at hlook
  by_cases hpf : postingsFor kv0.1 documents = []
  · rw [if_pos hpf] at hlook
    exact absurd hlook (by simp)
  · rw [if_neg hpf] at hlook
    have h2 : kv0.2 = postingsFor kv0.1 documents := (Option.some_inj.mp hlook).symm
    have hfst : kv.1 = kv0.1 := by rw [← hmap]
    have hsnd : kv.2 = kv0.2.mergeSort (fun a b => decide (a.doc_id ≤ b.doc_id)) := by
      rw [← hmap]
    rw [hfst, hsnd, h2]
    exact ⟨rfl, hpf⟩

theorem build_entry_count_zero_iff (log sqrt : Rat → Rat)
    (documents : List (String × String)) (d : Nat) (vd : String × String)
    (hget : (validDocs documents).get? d = some vd) :
    (docEntryCount d (build_index log sqrt documents).postings = 0
      ↔ preprocess vd.2 = []) := by
  constructor
  · intro hz
    by_contra htok
    obtain ⟨t0, ht0⟩ := List.exists_mem_of_ne_nil _ htok
    have hc : ¬((preprocess vd.2).count t0 = 0) := by
      have := List.count_pos_iff_mem.mpr ht0
      omega
    have hmem := postingsFor_mem_of_count t0 documents d vd hget hc
    have hpf : ¬(postingsFor t0 documents = []) := List.ne_nil_of_mem hmem
    have hlook : alookup (build_index log sqrt documents).postings t0
        = some (postingsFor t0 documents) := by
      rw [build_postings_lookup, if_neg hpf]
    have hin : (t0, postingsFor t0 documents) ∈ (build_index log sqrt documents).postings :=
      alookup_mem_of_eq_some _ t0 _ hlook
    have hflen : 0 < ((postingsFor t0 documents).filter
        (fun e => decide (e.doc_id = d))).length := by
      apply List.length_pos_of_mem
      apply List.mem_filter.mpr
      exact ⟨hmem, by simp⟩
    have hle := nat_le_sum_of_mem
      (((build_index log sqrt documents).postings).map
        (fun kv => (kv.2.filter (fun e => decide (e.doc_id = d))).length))
      (((postingsFor t0 documents).filter (fun e => decide (e.doc_id = d))).length)
      (List.mem_map.mpr ⟨(t0, postingsFor t0 documents), hin, rfl⟩)
    rw [docEntryCount] at hz
    omega
  · intro htok
    rw [docEntryCount]
    apply List.sum_eq_zero
    intro x hx
    obtain ⟨kv, hkv, hlen⟩ := List.mem_map.mp hx
    rw [← hlen, List.length_eq_zero]
    by_contra hne
    obtain ⟨e, he⟩ := List.exists_mem_of_ne_nil _ hne
    obtain ⟨he2, hed⟩ := List.mem_filter.mp he
    have hedd : e.doc_id = d := by simpa using hed
    obtain ⟨hsort, hpf⟩ := build_item_is_postingsFor log sqrt documents kv hkv
    have he3 : e ∈ postingsFor kv.1 documents := by
      rw [hsort] at he2
      exact (List.mergeSort_perm _ _).mem_iff.mp he2
    obtain ⟨_, doc, hdget, hdcount⟩ := postingsFor_tf_pos kv.1 documents e he3
    rw [hedd, hget] at hdget
    have hdoc : doc = vd := by
      have := Option.some_inj.mp hdget
      rw [this]
    rw [hdoc, htok] at hdcount
    simp at hdcount
    obtain ⟨h1, _⟩ := postingsFor_tf_pos kv.1 documents e he3
    omega

end DocuSearch

namespace DocuSearch

theorem docNormSum_pos (log sqrt : Rat → Rat) (documents : List (String × String)) (d : Nat)
    (hlog : ∀ q : Rat, 1 ≤ q → 0 ≤ log q)
    (hcount : ¬(docEntryCount d (build_index log sqrt documents).postings = 0)) :
    0 < docNormSum log (build_index log sqrt documents).idf d
        (build_index log sqrt documents).postings := by
  have hex : ∃ kv ∈ (build_index log sqrt documents).postings,
      ¬((kv.2.filter (fun e => decide (e.doc_id = d))).length = 0) := by
    by_contra hall
    push_neg at hall
    apply hcount
    rw [docEntryCount]
    apply List.sum_eq_zero
    intro x hx
    obtain ⟨kv, hkv, hlen⟩ := List.mem_map.mp hx
    rw [← hlen]
    exact hall kv hkv
  obtain ⟨kv, hkv, hflen⟩ := hex
  obtain ⟨e, he⟩ := List.exists_mem_of_ne_nil
    (kv.2.filter (fun e => decide (e.doc_id = d)))
    (fun hnil => hflen (by rw [hnil]; rfl))
  obtain ⟨hsort, hpf⟩ := build_item_is_postingsFor log sqrt documents kv hkv
  have he2 : e ∈ kv.2 := (List.mem_filter.mp he).1
  have he3 : e ∈ postingsFor kv.1 documents := by
    rw [hsort] at he2
    exact (List.mergeSort_perm _ _).mem_iff.mp he2
  have htf : 0 < e.tf := (postingsFor_tf_pos kv.1 documents e he3).1
  have hlenN : (postingsFor kv.1 documents).length ≤ (build_index log sqrt documents).N := by
    rw [build_index_N]
    have h1 : (postingsFor kv.1 documents).length ≤ (numbered documents).length :=
      List.length_filterMap_le _ _
    rwa [numbered, numberFrom_length] at h1
  have hidf : alookup (build_index log sqrt documents).idf kv.1
      = some (log ((((build_index log sqrt documents).N : Rat) + 1)
          / (((postingsFor kv.1 documents).length : Rat) + 1)) + 1) := by
    rw [build_idf_lookup, if_neg hpf]
  have hargo : (1 : Rat) ≤ (((build_index log sqrt documents).N : Rat) + 1)
      / (((postingsFor kv.1 documents).length : Rat) + 1) := by
    rw [le_div_iff (by positivity), one_mul]
    have hcast : ((postingsFor kv.1 documents).length : Rat)
        ≤ ((build_index log sqrt documents).N : Rat) := by exact_mod_cast hlenN
    linarith
  have hidfv : (1 : Rat) ≤ (alookup (build_index log sqrt documents).idf kv.1).getD 0 := by
    rw [hidf, Option.getD_some]
    have := hlog _ hargo
    linarith
  have htfw : (1 : Rat) ≤ 1 + log ((e.tf : Nat) : Rat) := by
    have h1 : (1 : Rat) ≤ ((e.tf : Nat) : Rat) := by exact_mod_cast htf
    have := hlog _ h1
    linarith
  have hterm : 0 < ((1 + log ((e.tf : Nat) : Rat))
      * (alookup (build_index log sqrt documents).idf kv.1).getD 0) ^ 2 := by
    have hprod : (1 : Rat) ≤ (1 + log ((e.tf : Nat) : Rat))
        * (alookup (build_index log sqrt documents).idf kv.1).getD 0 := by nlinarith
    exact pow_pos (by linarith) 2
  apply rat_sum_pos _ ?hnn
    (((kv.2.filter (fun e => decide (e.doc_id = d))).map
      (fun e => ((1 + log ((e.tf : Nat) : Rat))
        * (alookup (build_index log sqrt documents).idf kv.1).getD 0) ^ 2)).sum)
    (List.mem_map.mpr ⟨kv, hkv, rfl⟩)
  case hnn =>
    intro x hx
    obtain ⟨kv2, _, hkv2⟩ := List.mem_map.mp hx
    rw [← hkv2]
    apply rat_sum_nonneg
    intro y hy
    obtain ⟨e2, _, he2y⟩ := List.mem_map.mp hy
    rw [← he2y]
    exact sq_nonneg _
  apply rat_sum_pos _ ?hnn2
    (((1 + log ((e.tf : Nat) : Rat))
      * (alookup (build_index log sqrt documents).idf kv.1).getD 0) ^ 2)
    (List.mem_map.mpr ⟨e, he, rfl⟩)
  case hnn2 =>
    intro y hy
    obtain ⟨e2, _, he2y⟩ := List.mem_map.mp hy
    rw [← he2y]
    exact sq_nonneg _
  exact hterm

/-- C7: in every built index, the stored norm of every assigned doc_id is
non-negative, and it is zero (equivalently, the entry is absent, read back
with default 0) exactly when the stored text of that document tokenizes to no
indexed terms.  The hypotheses state the order facts of the real ln and sqrt:
ln is non-negative from 1 up and sqrt is positive on positive input. -/
theorem doc_norm_nonneg_and_zero_iff (log sqrt : Rat → Rat)
    (hlog : ∀ q : Rat, 1 ≤ q → 0 ≤ log q)
    (hsqrt : ∀ q : Rat, 0 < q → 0 < sqrt q)
    (documents : List (String × String)) (d : Nat)
    (hd : d < (build_index log sqrt documents).N) :
    0 ≤ (alookup (build_index log sqrt documents).doc_norm (JKey.int d)).getD 0
    ∧ ((alookup (build_index log sqrt documents).doc_norm (JKey.int d)).getD 0 = 0
        ↔ (alookup (build_index log sqrt documents).forward_index (JKey.int d)).map
            preprocess = some []) := by
  have hd2 : d < (validDocs documents).length := by
    rw [← build_index_N log sqrt documents]
    exact hd
  have hget : (validDocs documents).get? d
      = some ((validDocs documents).get ⟨d, hd2⟩) := List.get?_eq_get hd2
  rw [build_forward_lookup, hget, Option.map_some', Option.map_some']
  rw [build_doc_norm_lookup]
  by_cases hc : docEntryCount d (build_index log sqrt documents).postings = 0
  · rw [if_pos hc]
    refine ⟨le_refl _, ?_⟩
    constructor
    · intro _
      rw [(build_entry_count_zero_iff log sqrt documents d _ hget).mp hc]
    · intro _
      rfl
  · rw [if_neg hc]
    have hpos := hsqrt _ (docNormSum_pos log sqrt documents d hlog hc)
    rw [Option.getD_some]
    refine ⟨le_of_lt hpos, ?_⟩
    constructor
    · intro h0
      exact absurd h0 (ne_of_gt hpos)
    · intro hsome
      exact absurd ((build_entry_count_zero_iff log sqrt documents d _ hget).mpr
        (Option.some_inj.mp hsome)) hc

/-- Witness for C7: a corpus with one scoring document and one document whose
text is entirely stop-words; the latter has norm 0 and empty token list. -/
theorem doc_norm_nonneg_and_zero_iff_witness :
    (0 ≤ (alookup (build_index (fun _ => 1) (fun q => q)
        [("a", "hello hello"), ("b", "the the")]).doc_norm (JKey.int 1)).getD 0)
    ∧ ((alookup (build_index (fun _ => 1) (fun q => q)
        [("a", "hello hello"), ("b", "the the")]).doc_norm (JKey.int 1)).getD 0 = 0
      ↔ (alookup (build_index (fun _ => 1) (fun q => q)
          [("a", "hello hello"), ("b", "the the")]).forward_index (JKey.int 1)).map
            preprocess = some []) :=
  doc_norm_nonneg_and_zero_iff (fun _ => 1) (fun q => q)
    (fun _ _ => by norm_num) (fun q hq => hq)
    [("a", "hello hello"), ("b", "the the")] 1
    (by rw [build_index_N]; decide)

end DocuSearch

namespace DocuSearch

theorem tfOf_pos_of_mem (log sqrt : Rat → Rat) (documents : List (String × String))
    (t : String) (d : Nat)
    (hd : d ∈ (plistOf (build_index log sqrt documents) t).map Posting.doc_id) :
    ¬((tfOf (plistOf (build_index log sqrt documents) t) d).getD 0 = 0) := by
  rcases hlook : alookup (build_index log sqrt documents).postings t with _ | pf
  · rw [plistOf, hlook] at hd
    simp at hd
  · have hpl : plistOf (build_index log sqrt documents) t = pf := by
      rw [plistOf, hlook]
      rfl
    rw [hpl] at hd ⊢
    rw [build_postings_lookup] at hlook
    by_cases hpf : postingsFor t documents = []
    · rw [if_pos hpf] at hlook
      exact absurd hlook (by simp)
    · rw [if_neg hpf] at hlook
      have hpfeq : pf = postingsFor t documents := (Option.some_inj.mp hlook).symm
      obtain ⟨e0, he0, hed⟩ := List.mem_map.mp hd
      have hfind : (pf.reverse.find? (fun e => decide (e.doc_id = d))).isSome := by
        rw [List.find?_isSome]
        exact ⟨e0, by simpa using he0, by simpa using hed⟩
      rcases hf : pf.reverse.find? (fun e => decide (e.doc_id = d)) with _ | e1
      · rw [hf] at hfind
        simp at hfind
      · have he1 : e1 ∈ pf := by
          have := List.mem_of_find?_eq_some hf
          simpa using this
      
        have htf1 : 0 < e1.tf := by
          rw [hpfeq] at he1
          exact (postingsFor_tf_pos t documents e1 he1).1
        rw [tfOf, hf, Option.map_some', Option.getD_some]
        omega

/-- C2: for every index built by build_index and every (doc_id, score) pair
search returns, the score is the sum over the distinct query terms of
(1 + ln tf) * idf, divided by the stored norm with the divisor taken as 1
when the norm is zero or absent, and the idf stored at build time for a term
with document frequency dfi is ln((N+1)/(dfi+1)) + 1.  The hypothesis is the
order fact that the real sqrt is non-negative on non-negative input. -/
theorem search_score_tfidf (log sqrt : Rat → Rat)
    (hsqrt : ∀ q : Rat, 0 ≤ q → 0 ≤ sqrt q)
    (documents : List (String × String)) (query : String) (d : Nat) (s : Rat)
    (hmem : (d, s) ∈ search log query (build_index log sqrt documents)) :
    (∀ t dfi, alookup (build_index log sqrt documents).df t = some dfi →
        alookup (build_index log sqrt documents).idf t
          = some (log ((((build_index log sqrt documents).N : Rat) + 1)
              / ((dfi : Rat) + 1)) + 1))
    ∧ s = ((preprocess query).dedup.map (fun t =>
          (1 + log (((tfOf (plistOf (build_index log sqrt documents) t) d).getD 0 : Nat)
            : Rat)) * (alookup (build_index log sqrt documents).idf t).getD 0)).sum
        / ((alookup (build_index log sqrt documents).doc_norm (JKey.int d)).elim 1
            (fun nv => if nv = 0 then 1 else nv)) := by
  constructor
  · intro t dfi hdf
    rw [build_df_lookup] at hdf
    by_cases hpf : postingsFor t documents = []
    · rw [if_pos hpf] at hdf
      exact absurd hdf (by simp)
    · rw [if_neg hpf] at hdf
      rw [build_idf_lookup, if_neg hpf, ← Option.some_inj.mp hdf]
  · simp only [search] at hmem
    by_cases h1 : (preprocess query).isEmpty
    · rw [if_pos h1] at hmem
      exact absurd hmem (by simp)
    · rw [if_neg h1] at hmem
      by_cases h2 : (preprocess query).any
          (fun t => (plistOf (build_index log sqrt documents) t).isEmpty)
      · rw [if_pos h2] at hmem
        exact absurd hmem (by simp)
      · rw [if_neg h2] at hmem
        by_cases h3 : (and_intersect ((preprocess query).map
            (fun t => plistOf (build_index log sqrt documents) t))).isEmpty
        · rw [if_pos h3] at hmem
          exact absurd hmem (by simp)
        · rw [if_neg h3] at hmem
          have hmem2 := (List.mergeSort_perm _ rankLe).mem_iff.mp hmem
          obtain ⟨d0, hd0, heq⟩ := List.mem_map.mp hmem2
          obtain ⟨hdd, hss⟩ := Prod.mk.injEq .. ▸ heq.symm
          subst hdd
          have hdocs : ∀ t ∈ preprocess query,
              d ∈ (plistOf (build_index log sqrt documents) t).map Posting.doc_id := by
            intro t ht
            have hlists : (preprocess query).map
                (fun t => plistOf (build_index log sqrt documents) t) ≠ [] := by
              intro hnil
              rw [List.map_eq_nil_iff.mp hnil] at h1
              exact h1 rfl
            have := (and_intersect_mem _ hlists d).mp hd0
            exact this _ (List.mem_map.mpr ⟨t, ht, rfl⟩)
          have hall : ((preprocess query).dedup.all (fun t =>
              !(decide ((tfOf (plistOf (build_index log sqrt documents) t) d).getD 0
                = 0)))) = true := by
            rw [List.all_eq_true]
            intro t ht
            simp only [Bool.not_eq_eq_eq_not, Bool.not_true, decide_eq_false_iff_not]
            exact tfOf_pos_of_mem log sqrt documents t d
              (hdocs t (List.mem_dedup.mp ht))
          have hscore : scoreOf log (build_index log sqrt documents) (preprocess query) d
              = ((preprocess query).dedup.map (fun t =>
                  (1 + log (((tfOf (plistOf (build_index log sqrt documents) t) d).getD 0
                    : Nat) : Rat))
                    * (alookup (build_index log sqrt documents).idf t).getD 0)).sum := by
            simp only [scoreOf]
            rw [if_pos hall]
          rw [hss]
          simp only [applyNorm]
          rw [hscore]
          rcases hnv : alookup (build_index log sqrt documents).doc_norm (JKey.int d)
            with _ | nv
          · rw [Option.getD_none, if_pos zero_lt_one]
            rfl
          · rw [Option.getD_some]
            have hnv0 : 0 ≤ nv := by
              rw [build_doc_norm_lookup] at hnv
              by_cases hc : docEntryCount d (build_index log sqrt documents).postings = 0
              · rw [if_pos hc] at hnv
                exact absurd hnv (by simp)
              · rw [if_neg hc] at hnv
                rw [← Option.some_inj.mp hnv]
                exact hsqrt _ (docNormSum_nonneg log
                  (build_index log sqrt documents).idf d
                  (build_index log sqrt documents).postings)
            by_cases hz : nv = 0
            · rw [Option.elim_some, if_pos hz, hz, div_one]
              rw [if_neg (by norm_num)]
            · rw [Option.elim_some, if_neg hz,
                if_pos (lt_of_le_of_ne hnv0 (Ne.symm hz))]

end DocuSearch

namespace DocuSearch

theorem c2eval_postings :
    (build_index (fun _ => 1) (fun q => q) [("a", "hello hello")]).postings
      = [("hello", [⟨0, 2⟩])] := by
  rw [build_index_postings]
  rw [show ([("a", "hello hello")].foldl (fun st doc => processDoc st doc.1 doc.2)
      (⟨[], [], [], [], 0⟩ : BuildSt)).postings = [("hello", [⟨0, 2⟩])] from by decide]
  simp

theorem c2eval_plist :
    plistOf (build_index (fun _ => 1) (fun q => q) [("a", "hello hello")]) ("hello")
      = [⟨0, 2⟩] := by
  rw [plistOf, c2eval_postings]
  simp [alookup]

theorem c2eval_idf :
    alookup (build_index (fun _ => 1) (fun q => q) [("a", "hello hello")]).idf ("hello")
      = some 2 := by
  rw [build_idf_lookup, if_neg (by decide : ¬(postingsFor ("hello")
    [("a", "hello hello")] = []))]
  norm_num

theorem c2eval_norm :
    alookup (build_index (fun _ => 1) (fun q => q) [("a", "hello hello")]).doc_norm
      (JKey.int 0) = some 16 := by
  rw [build_doc_norm_lookup]
  rw [if_neg ?hc]
  case hc =>
    rw [c2eval_postings]
    decide
  rw [docNormSum, c2eval_postings]
  simp only [List.map_cons, List.map_nil, List.filter_cons, List.filter_nil]
  norm_num [c2eval_idf]

theorem c2eval_score :
    scoreOf (fun _ => 1) (build_index (fun _ => 1) (fun q => q) [("a", "hello hello")])
      ["hello"] 0 = 4 := by
  simp only [scoreOf]
  rw [show (["hello"] : List String).dedup = ["hello"] from by decide]
  rw [if_pos ?hall]
  case hall =>
    rw [List.all_cons, List.all_nil, c2eval_plist]
    decide
  rw [List.map_cons, List.map_nil, c2eval_idf]
  norm_num

theorem c2eval_apply :
    applyNorm (build_index (fun _ => 1) (fun q => q) [("a", "hello hello")]) 0 4
      = 1 / 4 := by
  simp only [applyNorm]
  rw [c2eval_norm]
  norm_num

theorem c2eval_search :
    search (fun _ => 1) ("hello") (build_index (fun _ => 1) (fun q => q)
      [("a", "hello hello")]) = [(0, 1 / 4)] := by
  rw [search_eq_of_hyp _ _ _ (by decide) ?hpost]
  case hpost =>
    intro t ht
    rw [show preprocess ("hello") = ["hello"] from by decide] at ht
    rw [List.mem_singleton.mp ht, c2eval_plist]
    simp
  rw [show preprocess ("hello") = ["hello"] from by decide]
  rw [List.map_cons, List.map_nil, c2eval_plist]
  rw [show and_intersect [[(⟨0, 2⟩ : Posting)]] = [0] from by simp [and_intersect]]
  rw [List.map_cons, List.map_nil, c2eval_score, c2eval_apply, List.mergeSort_singleton]

/-- Witness for C2: the concrete instance at the index built from the single
document "hello hello" and the query "hello", where search returns doc 0 with
score 1/4 = ((1 + ln 2) * idf) / norm with the constant-1 log model. -/
theorem search_score_tfidf_witness :
    (∀ t dfi,
        alookup (build_index (fun _ => (1 : Rat)) (fun q => q)
          [("a", "hello hello")]).df t = some dfi →
        alookup (build_index (fun _ => (1 : Rat)) (fun q => q)
          [("a", "hello hello")]).idf t = some (1 + 1))
    ∧ (1 / 4 : Rat)
      = ((preprocess ("hello")).dedup.map (fun t =>
            (1 + 1) * (alookup (build_index (fun _ => (1 : Rat)) (fun q => q)
              [("a", "hello hello")]).idf t).getD 0)).sum
        / ((alookup (build_index (fun _ => (1 : Rat)) (fun q => q)
              [("a", "hello hello")]).doc_norm (JKey.int 0)).elim 1
            (fun nv => if nv = 0 then 1 else nv)) :=
  search_score_tfidf (fun _ => 1) (fun q => q) (fun _ hq => hq)
    [("a", "hello hello")] ("hello") 0 (1 / 4)
    (by rw [c2eval_search]; exact List.mem_singleton.mpr rfl)

theorem alookup_jkeyStr_int {β : Type} (l : List (JKey × β)) (n : Nat) :
    alookup (l.map (fun kv => (jkeyStr kv.1, kv.2))) (JKey.int n) = none := by
  induction l with
  | nil => rfl
  | cons kv tl ih =>
      rw [List.map_cons]
      simp only [alookup]
      rw [if_neg ?hne]
      · exact ih
      case hne =>
        cases kv.1 with
        | int m => simp [jkeyStr]
        | str s => simp [jkeyStr]

theorem c4eval_norm :
    alookup (save_load_round_trip (build_index (fun _ => 1) (fun q => q)
      [("a", "hello hello")])).doc_norm (JKey.int 0) = none := by
  rw [show (save_load_round_trip (build_index (fun _ => (1 : Rat)) (fun q => q)
      [("a", "hello hello")])).doc_norm
      = (build_index (fun _ => (1 : Rat)) (fun q => q)
          [("a", "hello hello")]).doc_norm.map (fun kv => (jkeyStr kv.1, kv.2))
    from rfl]
  exact alookup_jkeyStr_int _ 0

theorem c4eval_apply :
    applyNorm (save_load_round_trip (build_index (fun _ => 1) (fun q => q)
      [("a", "hello hello")])) 0 4 = 4 := by
  simp only [applyNorm]
  rw [c4eval_norm]
  norm_num

theorem c4eval_search :
    search (fun _ => 1) ("hello") (save_load_round_trip
      (build_index (fun _ => 1) (fun q => q) [("a", "hello hello")]))
      = [(0, 4)] := by
  rw [search_eq_of_hyp _ _ _ (by decide) ?hpost]
  case hpost =>
    intro t ht
    rw [show preprocess ("hello") = ["hello"] from by decide] at ht
    rw [List.mem_singleton.mp ht]
    rw [show plistOf (save_load_round_trip (build_index (fun _ => (1 : Rat))
        (fun q => q) [("a", "hello hello")])) ("hello") = [⟨0, 2⟩]
      from c2eval_plist]
    simp
  rw [show preprocess ("hello") = ["hello"] from by decide]
  rw [List.map_cons, List.map_nil]
  rw [show plistOf (save_load_round_trip (build_index (fun _ => (1 : Rat))
      (fun q => q) [("a", "hello hello")])) ("hello") = [⟨0, 2⟩]
    from c2eval_plist]
  rw [show and_intersect [[(⟨0, 2⟩ : Posting)]] = [0] from by simp [and_intersect]]
  rw [List.map_cons, List.map_nil]
  rw [show scoreOf (fun _ => (1 : Rat)) (save_load_round_trip
      (build_index (fun _ => 1) (fun q => q) [("a", "hello hello")]))
      ["hello"] 0 = 4 from c2eval_score]
  rw [c4eval_apply, List.mergeSort_singleton]

/-- C4: the claim that searching load_index(save_index(index)) yields exactly
the same (doc_id, score) results as searching the original index is FALSE of
the code.  json.dump writes the int keys of doc_norm (and doc_id_map,
forward_index) as decimal strings and json.load returns them as strings, so
after a round trip search's doc_norm.get(doc_id) lookup (with an int key)
misses and the norm defaults to 1.0.  Concretely, for the index built from the
single document "hello hello" and the query "hello", the original index
returns [(0, 1/4)] while the round-tripped index returns [(0, 4)]. -/
theorem round_trip_changes_scores :
    search (fun _ => 1) ("hello") (save_load_round_trip
        (build_index (fun _ => 1) (fun q => q) [("a", "hello hello")]))
      ≠ search (fun _ => 1) ("hello")
          (build_index (fun _ => 1) (fun q => q) [("a", "hello hello")]) := by
  rw [c4eval_search, c2eval_search]
  simp only [ne_eq, List.cons.injEq, Prod.mk.injEq, and_true, true_and, not_and]
  intro h
  norm_num at h

end DocuSearch
